import Mathlib

/-!
Shallow embedding of the diffusion-garden canvas core (graph store,
run scheduler, job client) together with proofs of its specified
properties.  Definitions are transcribed from the frontend sources:
`store/canvasStore.ts` (second store variant), `components/nodes/TextBlockNode.tsx`
(second variant), `components/nodes/BaseBlockNode.tsx`, and `api/client.ts`.
-/

namespace DiffusionGarden

/-- Per-node status enum `BlockStatus` from `types/index.ts`:
`idle | running | success | error`. -/
inductive BlockStatus where
  | idle
  | running
  | success
  | error
deriving DecidableEq, Repr

/-- Discriminant of the tagged node-data union (`data.type` field):
`text` or `image`. -/
inductive BlockType where
  | text
  | image
deriving DecidableEq, Repr

/-- Node position `{x, y}`.  No claim computes with coordinates, so the
numeric type is irrelevant; integers are used. -/
structure Position where
  x : Int
  y : Int
deriving DecidableEq, Repr

/-- Node data blob, covering the union `TextBlockData | ImageBlockData`
from `types/index.ts`.  The `type` tag discriminates; text blocks use
`content`/`model`, image blocks use `imageUrl`/`imageId`/`source`/`variation`.
Optional JS fields are `Option`; `jobId` is attached while a job is
pending or running. -/
structure BlockData where
  type : BlockType
  title : String
  content : String
  imageUrl : String
  imageId : Option String
  source : String
  prompt : Option String
  model : String
  status : BlockStatus
  error : Option String
  jobId : Option String
  sourceBlockId : Option String
  autoRun : Bool
deriving DecidableEq, Repr

/-- React Flow node: `{id, type, position, selected, data}`. -/
structure AppNode where
  id : String
  nodeType : String
  position : Position
  selected : Bool
  data : BlockData
deriving DecidableEq, Repr

/-- React Flow edge `{id, source, target, type}`. -/
structure AppEdge where
  id : String
  source : String
  target : String
  edgeType : String
deriving DecidableEq, Repr

/-- The slice of the zustand `CanvasStore` state that the verified
operations touch: nodes, edges, the selection, and the run queue
(`nodesToRun`). -/
structure CanvasState where
  nodes : List AppNode
  edges : List AppEdge
  selectedNodeIds : List String
  nodesToRun : List String
deriving DecidableEq, Repr

/-- JS `String.prototype.trim()`: strip leading and trailing
whitespace. -/
def jsTrim (s : String) : String :=
  String.mk
    (((s.data.dropWhile Char.isWhitespace).reverse.dropWhile
        Char.isWhitespace).reverse)

/-- React Flow `Connection` as consumed by `onConnect`: source and
target may be null. -/
structure Connection where
  source : Option String
  target : Option String
deriving DecidableEq, Repr

/-! ## Cycle detection (`wouldCreateCycle`)

The store builds a `Map<string, string[]>` adjacency list from the edge
array plus the proposed edge, then runs a depth-first search with a
`visited` set and a `recursionStack` set.  The `Map` is modelled as an
association list with unique keys in insertion order. -/

/-- One step of adjacency building: `adjacency.get(s) || []` extended by
`t` and stored back.  Mirrors the body of the `edges.forEach` loop of
`wouldCreateCycle`. -/
def adjInsert : List (String × List String) → String → String → List (String × List String)
  | [], s, t => [(s, [t])]
  | (k, vs) :: rest, s, t =>
      if k = s then (k, vs ++ [t]) :: rest else (k, vs) :: adjInsert rest s t

/-- Neighbor lookup `adjacency.get(node) || []`. -/
def adjNeighbors (adj : List (String × List String)) (n : String) : List String :=
  match adj.find? (fun p => p.1 == n) with
  | some p => p.2
  | none => []

/-- Key iteration order of the `Map` (insertion order). -/
def adjKeys (adj : List (String × List String)) : List String :=
  adj.map (fun p => p.1)

/-- Adjacency list for `wouldCreateCycle`: all existing edges followed by
the proposed edge `source → target`. -/
def buildAdjacency (edges : List AppEdge) (source target : String) :
    List (String × List String) :=
  adjInsert (edges.foldl (fun a e => adjInsert a e.source e.target) []) source target

/-- Every node id mentioned in the adjacency list (keys and neighbor
entries); used only to size the recursion fuel. -/
def adjNodes (adj : List (String × List String)) : List String :=
  adj.foldr (fun p acc => p.1 :: (p.2 ++ acc)) []

/-- The `for (const neighbor of neighbors)` loop of `hasCycle`: an
unvisited neighbor is explored through `rec` (the recursive
`hasCycle` call, passed as an argument so that the recursion is
structural), a visited neighbor that is on the recursion stack is a
back edge (cycle found), any other visited neighbor is skipped. -/
def dfsNeighbors (adj : List (String × List String))
    (rec : String → List String → List String → Option (Bool × List String)) :
    List String → List String → List String → Option (Bool × List String)
  | [], visited, _ => some (false, visited)
  | n :: rest, visited, stack =>
      if n ∈ visited then
        if n ∈ stack then some (true, visited)
        else dfsNeighbors adj rec rest visited stack
      else
        match rec n visited stack with
        | none => none
        | some (true, v) => some (true, v)
        | some (false, v) => dfsNeighbors adj rec rest v stack

/-- The recursive `hasCycle(node)` closure of `wouldCreateCycle`: mark
`node` visited and on the recursion stack, scan its neighbors, then pop.
The mutable sets are threaded explicitly; `visited` only grows, and the
recursion stack is restored on return, so only the updated `visited` set
is returned together with the detection flag.  Recursion depth is paid
for by `fuel`; `none` means the fuel ran out (shown impossible for the
fuel chosen in `wouldCreateCycle`). -/
def dfsNode (adj : List (String × List String)) :
    Nat → String → List String → List String → Option (Bool × List String)
  | 0, _, _, _ => none
  | f + 1, u, visited, stack =>
      dfsNeighbors adj (dfsNode adj f) (adjNeighbors adj u)
        (u :: visited) (u :: stack)

/-- The `for (const node of adjacency.keys())` loop of
`wouldCreateCycle`: run the DFS from every not-yet-visited key. -/
def dfsRoots (adj : List (String × List String)) (fuel : Nat) :
    List String → List String → Option (Bool × List String)
  | [], visited => some (false, visited)
  | k :: ks, visited =>
      if k ∈ visited then dfsRoots adj fuel ks visited
      else
        match dfsNode adj fuel k visited [] with
        | none => none
        | some (true, v) => some (true, v)
        | some (false, v) => dfsRoots adj fuel ks v

/-- `wouldCreateCycle(source, target)` from `canvasStore.ts`: build the
adjacency list of the existing edges plus the proposed edge and search
for a cycle by DFS.  The fuel bound `|adjNodes| + 1` is enough for the
recursion (depth is bounded by the number of distinct nodes); should it
ever run out the result defaults to `true`, the safe answer. -/
def wouldCreateCycle (edges : List AppEdge) (source target : String) : Bool :=
  let adj := buildAdjacency edges source target
  match dfsRoots adj ((adjNodes adj).length + 1) (adjKeys adj) [] with
  | some (b, _) => b
  | none => true

/-- The edge object `onConnect` appends on success. -/
def mkEdge (source target : String) : AppEdge :=
  { id := "edge-" ++ source ++ "-" ++ target
    source := source
    target := target
    edgeType := "animated" }

/-- `onConnect(connection)` from `canvasStore.ts`: bail out on a missing
(or empty, JS falsy) endpoint, reject if the edge would create a cycle,
otherwise append the new edge to the ordered edge collection. -/
def onConnect (c : Connection) (st : CanvasState) : CanvasState :=
  match c.source, c.target with
  | some s, some t =>
      if s = "" ∨ t = "" then st
      else if wouldCreateCycle st.edges s t then st
      else { st with edges := st.edges ++ [mkEdge s t] }
  | _, _ => st

/-! ## Lineage (`getLineage`) -/

/-- The inner `for` loop of each BFS in `getLineage`: add every
not-yet-collected neighbor to the collected set and to the queue.  The
collected set keeps insertion order (as `Array.from(Set)` does); `acc`
accumulates the nodes to push onto the queue. -/
def bfsScan (xs seen acc : List String) : List String × List String :=
  match xs with
  | [] => (seen, acc)
  | x :: rest =>
      if x ∈ seen then bfsScan rest seen acc
      else bfsScan rest (seen ++ [x]) (acc ++ [x])

/-- The `while (queue.length > 0)` loop of each BFS in `getLineage`:
shift the head of the queue, scan its neighbors, push the fresh ones.
`fuel` bounds the number of iterations; `none` flags exhaustion (shown
impossible for the fuel chosen in `getLineage`). -/
def bfsAux (nbrs : String → List String) :
    Nat → List String → List String → Option (List String)
  | 0, _, _ => none
  | _ + 1, [], seen => some seen
  | fuel + 1, c :: queue, seen =>
      let scanned := bfsScan (nbrs c) seen []
      bfsAux nbrs fuel (queue ++ scanned.2) scanned.1

/-- Backward adjacency of `getLineage`: the sources of all edges whose
target is `c`, in edge order (the order the `edges.forEach` loop pushes
them). -/
def backwardNeighbors (edges : List AppEdge) (c : String) : List String :=
  (edges.filter (fun e => e.target == c)).map (fun e => e.source)

/-- Forward adjacency of `getLineage`: the targets of all edges whose
source is `c`, in edge order. -/
def forwardNeighbors (edges : List AppEdge) (c : String) : List String :=
  (edges.filter (fun e => e.source == c)).map (fun e => e.target)

/-- Iteration bound for the `getLineage` BFS loops: each iteration pops
one queue entry, and at most one initial entry plus one entry per node
occurrence in the edge list is ever pushed. -/
def lineageFuel (edges : List AppEdge) : Nat :=
  2 * edges.length + 2

/-- `getLineage(nodeId)` from `canvasStore.ts`: ancestors by BFS over
the reversed edge relation, descendants by BFS over the forward
relation, both started from `nodeId` with an empty collected set. -/
def getLineage (edges : List AppEdge) (nodeId : String) :
    List String × List String :=
  ((bfsAux (backwardNeighbors edges) (lineageFuel edges) [nodeId] []).getD [],
   (bfsAux (forwardNeighbors edges) (lineageFuel edges) [nodeId] []).getD [])

/-! ## Input aggregation (`getInputBlocks`, `getInputBlockContent`) -/

/-- `getInputBlocks(nodeId)` from `canvasStore.ts`: collect the sources
of all edges targeting `nodeId`, then filter the node array (in node
order) down to those ids. -/
def getInputBlocks (st : CanvasState) (nodeId : String) : List AppNode :=
  let inputEdgeSources :=
    (st.edges.filter (fun e => e.target == nodeId)).map (fun e => e.source)
  st.nodes.filter (fun n => inputEdgeSources.contains n.id)

/-- `InputContentItem` from `types/index.ts`: a text contribution or an
image contribution. -/
inductive InputContentItem where
  | textItem (content : String)
  | imageItem (url : String)
deriving DecidableEq, Repr

/-- `getInputBlockContent(nodeId)` from `canvasStore.ts`: walk the input
blocks; a text block with non-empty trimmed content contributes a
trimmed text item, an image block with a non-empty `imageUrl`
contributes an image item, anything else is skipped. -/
def getInputBlockContent (st : CanvasState) (nodeId : String) :
    List InputContentItem :=
  let inputBlocks := getInputBlocks st nodeId
  if inputBlocks.isEmpty then []
  else
    inputBlocks.foldl
      (fun acc block =>
        match block.data.type with
        | BlockType.text =>
            if jsTrim block.data.content ≠ "" then
              acc ++ [InputContentItem.textItem (jsTrim block.data.content)]
            else acc
        | BlockType.image =>
            if block.data.imageUrl ≠ "" then
              acc ++ [InputContentItem.imageItem block.data.imageUrl]
            else acc)
      []

/-! ## Node CRUD and the run queue -/

/-- Partial `data` update as accepted by `updateBlockData(nodeId, data)`.
Each field is `none` when the JS patch object omits the property and
`some v` when it is present with value `v`; for `jobId` the inner
`Option` mirrors an explicitly passed `undefined` (as in
`{ jobId: undefined }`), which does overwrite the stored value. -/
structure BlockDataPatch where
  content : Option String := none
  jobId : Option (Option String) := none
  autoRun : Option Bool := none
deriving DecidableEq, Repr

/-- JS object spread `{ ...node.data, ...data }` for the patch fields. -/
def applyPatch (d : BlockData) (p : BlockDataPatch) : BlockData :=
  { d with
    content := p.content.getD d.content
    jobId := p.jobId.getD d.jobId
    autoRun := p.autoRun.getD d.autoRun }

/-- `updateBlockData(nodeId, data)` from `canvasStore.ts`: merge the
patch into the matching node's data, leave every other node alone. -/
def updateBlockData (nodeId : String) (p : BlockDataPatch) (st : CanvasState) :
    CanvasState :=
  { st with
    nodes := st.nodes.map (fun n =>
      if n.id == nodeId then { n with data := applyPatch n.data p } else n) }

/-- `updateBlockStatus(nodeId, status, error)` from `canvasStore.ts`:
spread `{ ...node.data, status, error }` on the matching node.  The
`error` property is always written, so an omitted argument (modelled as
`none`) overwrites any previously stored error. -/
def updateBlockStatus (nodeId : String) (status : BlockStatus)
    (error : Option String) (st : CanvasState) : CanvasState :=
  { st with
    nodes := st.nodes.map (fun n =>
      if n.id == nodeId then
        { n with data := { n.data with status := status, error := error } }
      else n) }

/-- `deleteNode(nodeId)` from `canvasStore.ts`: drop the node, every
incident edge, and the id from the selection. -/
def deleteNode (nodeId : String) (st : CanvasState) : CanvasState :=
  { st with
    nodes := st.nodes.filter (fun n => n.id != nodeId)
    edges := st.edges.filter (fun e => e.source != nodeId && e.target != nodeId)
    selectedNodeIds := st.selectedNodeIds.filter (fun i => i != nodeId) }

/-- `requestRunForNodes(nodeIds)` from `canvasStore.ts`: replace the run
queue wholesale. -/
def requestRunForNodes (nodeIds : List String) (st : CanvasState) : CanvasState :=
  { st with nodesToRun := nodeIds }

/-- `clearNodeFromRunQueue(nodeId)` from `canvasStore.ts`: remove every
occurrence of the id from the run queue. -/
def clearNodeFromRunQueue (nodeId : String) (st : CanvasState) : CanvasState :=
  { st with nodesToRun := st.nodesToRun.filter (fun i => i != nodeId) }

/-- The run-queue drain effect of `BaseBlockNode.tsx`
(`if (nodesToRun.includes(id) && status !== "running" && onRun) { clearNodeFromRunQueue(id); onRun(); }`):
returns the updated store and whether the node's run action fired. -/
def pollRunQueue (id : String) (status : BlockStatus) (st : CanvasState) :
    CanvasState × Bool :=
  if st.nodesToRun.contains id && !(status == BlockStatus.running) then
    (clearNodeFromRunQueue id st, true)
  else (st, false)

/-- One drain-effect evaluation applied to a store plus an execution
log: the log records, in order, the ids whose run action fired. -/
def runStep (acc : CanvasState × List String) (p : String × BlockStatus) :
    CanvasState × List String :=
  let s := pollRunQueue p.1 p.2 acc.1
  (s.1, if s.2 then acc.2 ++ [p.1] else acc.2)

/-- A sequence of drain-effect evaluations, each by some node id with
its status at that moment; the second component logs, in order, the ids
whose run action fired. -/
def runPolls (polls : List (String × BlockStatus)) (st : CanvasState) :
    CanvasState × List String :=
  polls.foldl runStep (st, [])

/-! ## Job client (`api/client.ts` job API, `TextBlockNode.tsx` handlers,
`BaseBlockNode.tsx` recovery) -/

/-- The `result` payload of a `done` stream event or of a fetched job
(`{text?, imageId?, imageUrl?}`).  For a text job the server always
sends the running text in `text`; it is modelled as a plain string. -/
structure DoneResult where
  text : String := ""
  imageId : Option String := none
  imageUrl : Option String := none
deriving DecidableEq, Repr

/-- Named events of the job stream `GET /jobs/{jobId}/stream`. -/
inductive JobEvent where
  | chunk (text : String)
  | done (result : DoneResult)
  | error (message : String)
  | cancelled
deriving DecidableEq, Repr

/-- The stream callbacks installed by `handleRun` of `TextBlockNode.tsx`,
as a state transformer on the store: `onChunk` replaces the node's
content, `onDone` stores the final text, clears `jobId` and sets
Success, `onError` clears `jobId` and sets Error with the message,
`onCancelled` clears `jobId` and sets Idle. -/
def applyTextJobEvent (id : String) (ev : JobEvent) (st : CanvasState) :
    CanvasState :=
  match ev with
  | JobEvent.chunk t => updateBlockData id { content := some t } st
  | JobEvent.done r =>
      updateBlockStatus id BlockStatus.success none
        (updateBlockData id { content := some r.text, jobId := some none } st)
  | JobEvent.error m =>
      updateBlockStatus id BlockStatus.error (some m)
        (updateBlockData id { jobId := some none } st)
  | JobEvent.cancelled =>
      updateBlockStatus id BlockStatus.idle none
        (updateBlockData id { jobId := some none } st)

/-- Client-side view of one node's open job stream: the store, whether
the `EventSource` is still open, and whether
`streamCleanupFunctionRef.current` is set.  `subscribeToJob` opens the
source and `handleRun` stores the cleanup function, so both flags start
true together. -/
structure StreamState where
  store : CanvasState
  subOpen : Bool
  cleanupRef : Bool
deriving DecidableEq, Repr

/-- Delivery of one stream event to the node's subscription.  A closed
`EventSource` delivers nothing.  Terminal events run their handler,
close the source (`eventSource.close()` in `subscribeToJob`) and null
the cleanup ref (in the `TextBlockNode` handlers); `chunk` leaves the
stream open. -/
def deliverEvent (id : String) (ev : JobEvent) (s : StreamState) : StreamState :=
  if s.subOpen then
    match ev with
    | JobEvent.chunk t =>
        { s with store := applyTextJobEvent id (JobEvent.chunk t) s.store }
    | _ =>
        { store := applyTextJobEvent id ev s.store
          subOpen := false
          cleanupRef := false }
  else s

/-- The tail of `handleCancel` of `TextBlockNode.tsx`, executed after
the awaited `jobsApi.cancelJob` settles (successfully or not): close the
subscription through the cleanup ref if set, clear the node's `jobId`,
and reset its status to Idle. -/
def cancelTail (id : String) (s : StreamState) : StreamState :=
  let s1 :=
    if s.cleanupRef then { s with subOpen := false, cleanupRef := false } else s
  { s1 with
    store :=
      updateBlockStatus id BlockStatus.idle none
        (updateBlockData id { jobId := some none } s1.store) }

/-- A full `handleCancel` run: the awaited server-side cancel request
changes no client state (success and failure are both ignored beyond a
log), but stream events may be delivered while it is in flight; then the
tail runs. -/
def runCancel (id : String) (eventsDuringAwait : List JobEvent)
    (s : StreamState) : StreamState :=
  cancelTail id (eventsDuringAwait.foldl (fun acc ev => deliverEvent id ev acc) s)

/-- Job status enum of the executor (`pending | running | completed |
failed | cancelled`), as read by the recovery effect. -/
inductive JobStatus where
  | pending
  | running
  | completed
  | failed
  | cancelled
deriving DecidableEq, Repr

/-- Job record returned by `GET /jobs/{jobId}` as consumed by the
recovery effect of `BaseBlockNode.tsx`: status, optional result,
optional error. -/
structure Job where
  status : JobStatus
  result : Option DoneResult := none
  error : Option String := none
deriving DecidableEq, Repr

/-- `addApiHost(url)` from `api/client.ts`: `null`/empty stays `null`,
a URL already carrying the host is kept, anything else gets the host
prepended. -/
def addApiHost (host : String) : Option String → Option String
  | none => none
  | some u =>
      if u = "" then none
      else if u.startsWith host then some u
      else some (host ++ u)

/-- What the recovery effect does once the fetched job is in hand. -/
inductive RecoveryAction where
  | applyDone (r : DoneResult)
  | applyError (message : String)
  | applyCancelled
  | subscribe
  | nothing
deriving DecidableEq, Repr

/-- Decision logic of `recoverJob` in `BaseBlockNode.tsx`: a completed
job with a result applies `onDone` (with the image URL rewritten through
`addApiHost`); a failed job applies `onError` with `job.error ||
"Job failed"`; a cancelled job applies `onCancelled`; a pending or
running job opens the SSE subscription; a completed job without a result
falls through every check and does nothing. -/
def recoverAction (host : String) (job : Job) : RecoveryAction :=
  match job.status, job.result with
  | JobStatus.completed, some r =>
      RecoveryAction.applyDone { r with imageUrl := addApiHost host r.imageUrl }
  | JobStatus.completed, none => RecoveryAction.nothing
  | JobStatus.failed, _ =>
      RecoveryAction.applyError
        (match job.error with
         | some e => if e = "" then "Job failed" else e
         | none => "Job failed")
  | JobStatus.cancelled, _ => RecoveryAction.applyCancelled
  | JobStatus.pending, _ => RecoveryAction.subscribe
  | JobStatus.running, _ => RecoveryAction.subscribe

/-- Predicate used to state that a recovery decision opens a stream. -/
def opensStream : RecoveryAction → Bool
  | RecoveryAction.subscribe => true
  | _ => false

/-- Predicate used to state that a recovery decision applies the done
handler. -/
def isApplyDone : RecoveryAction → Bool
  | RecoveryAction.applyDone _ => true
  | _ => false

/-- One render of `BaseBlockNode` as seen by the two recovery effects:
given the guard ref `jobRecoveryAttemptedRef.current` and the observed
`jobRecovery.jobId`, return the new guard value and whether the effect
fetched the job status this render.  With a `jobId` present the first
effect fetches once and latches the guard; with no `jobId` the second
effect resets the guard. -/
def recoveryRenderStep (attempted : Bool) (jobId : Option String) :
    Bool × Bool :=
  match jobId with
  | some _ => if attempted then (true, false) else (true, true)
  | none => (false, false)

/-- A sequence of renders; the second component counts the job-status
fetches performed. -/
def recoveryRenders (observations : List (Option String)) (attempted : Bool) :
    Bool × Nat :=
  observations.foldl
    (fun acc obs =>
      let step := recoveryRenderStep acc.1 obs
      (step.1, acc.2 + (if step.2 then 1 else 0)))
    (attempted, 0)

/-! ## Graph semantics

Specification-level view of the edge list as a directed graph over node
ids: edge relation, reachability, acyclicity. -/

/-- There is an edge from `a` to `b` in the edge list. -/
def HasEdge (edges : List AppEdge) (a b : String) : Prop :=
  ∃ e ∈ edges, e.source = a ∧ e.target = b

/-- `b` is reachable from `a` along one or more directed edges. -/
def Reaches (edges : List AppEdge) (a b : String) : Prop :=
  Relation.TransGen (HasEdge edges) a b

/-- The edge list, viewed as a directed graph over node ids, has no
directed cycle (self-loops included, as length-one cycles). -/
def Acyclic (edges : List AppEdge) : Prop :=
  ∀ n, ¬ Reaches edges n n

/-- A strictly monotone rank function certifies acyclicity. -/
theorem acyclic_of_rank (edges : List AppEdge) (f : String → Nat)
    (h : ∀ e ∈ edges, f e.source < f e.target) : Acyclic edges := by
  have hstep : ∀ a b, Reaches edges a b → f a < f b := by
    intro a b hr
    induction hr with
    | single hab =>
        obtain ⟨e, he, hs, ht⟩ := hab
        subst hs
        subst ht
        exact h e he
    | tail _ hbc ih =>
        obtain ⟨e, he, hs, ht⟩ := hbc
        subst hs
        subst ht
        exact Nat.lt_trans ih (h e he)
  intro n hn
  exact absurd (hstep n n hn) (lt_irrefl _)

/-- The empty edge list is acyclic. -/
theorem acyclic_nil : Acyclic [] := by
  apply acyclic_of_rank _ (fun _ => 0)
  intro e he
  simp at he

/-- First node with a given id, as `nodes.find(n => n.id === id)`. -/
def findNode (st : CanvasState) (id : String) : Option AppNode :=
  st.nodes.find? (fun n => n.id == id)

/-- Mapping an id-matching rewrite over a node list rewrites exactly the
first match found by `find?`, provided the rewrite keeps the id. -/
theorem find?_map_idMatch (l : List AppNode) (id : String)
    (g : AppNode → AppNode) (hg : ∀ n, (g n).id = n.id) :
    (l.map (fun n => if n.id == id then g n else n)).find? (fun n => n.id == id)
      = (l.find? (fun n => n.id == id)).map g := by
  induction l with
  | nil => simp
  | cons n rest ih =>
      by_cases h : n.id = id
      · simp [hg, h]
      · have hb : (n.id == id) = false := by simp [h]
        have hbf : ¬ ((n.id == id) = true) := by simp [h]
        simp only [List.map_cons, hb, if_false, hbf, ite_false]
        rw [List.find?_cons_of_neg _ (by simp [h]),
          List.find?_cons_of_neg _ (by simp [h])]
        exact ih

/-- Specialization of `find?_map_idMatch` to `updateBlockData`. -/
theorem findNode_updateBlockData (st : CanvasState) (id : String)
    (p : BlockDataPatch) :
    findNode (updateBlockData id p st) id
      = (findNode st id).map (fun n => { n with data := applyPatch n.data p }) := by
  unfold findNode updateBlockData
  exact find?_map_idMatch st.nodes id _ (fun n => rfl)

/-- Specialization of `find?_map_idMatch` to `updateBlockStatus`. -/
theorem findNode_updateBlockStatus (st : CanvasState) (id : String)
    (s : BlockStatus) (e : Option String) :
    findNode (updateBlockStatus id s e st) id
      = (findNode st id).map
          (fun n => { n with data := { n.data with status := s, error := e } }) := by
  unfold findNode updateBlockStatus
  exact find?_map_idMatch st.nodes id _ (fun n => rfl)

/-- Claim C9: `deleteNode(n)` removes exactly the node with id `n`,
exactly the edges incident to `n`, and `n` from the selection; every
other node, edge and selection entry survives in order, the run queue is
untouched, and a `deleteNode` of an absent id leaves the node list
unchanged. -/
theorem deleteNode_spec (st : CanvasState) (nodeId : String) :
    (∀ m, m ∈ (deleteNode nodeId st).nodes ↔ m ∈ st.nodes ∧ m.id ≠ nodeId) ∧
    (∀ e, e ∈ (deleteNode nodeId st).edges ↔
        e ∈ st.edges ∧ e.source ≠ nodeId ∧ e.target ≠ nodeId) ∧
    (∀ i, i ∈ (deleteNode nodeId st).selectedNodeIds ↔
        i ∈ st.selectedNodeIds ∧ i ≠ nodeId) ∧
    (deleteNode nodeId st).nodesToRun = st.nodesToRun ∧
    (deleteNode nodeId st).nodes.Sublist st.nodes ∧
    (deleteNode nodeId st).edges.Sublist st.edges ∧
    ((∀ m ∈ st.nodes, m.id ≠ nodeId) → (deleteNode nodeId st).nodes = st.nodes) := by
  refine ⟨?_, ?_, ?_, rfl, ?_, ?_, ?_⟩
  · intro m
    simp [deleteNode, List.mem_filter]
  · intro e
    simp [deleteNode, List.mem_filter]
  · intro i
    simp [deleteNode, List.mem_filter]
  · exact List.filter_sublist _
  · exact List.filter_sublist _
  · intro h
    apply List.filter_eq_self.mpr
    intro a ha
    simpa using h a ha

/-- Witness for C9 at a concrete store. -/
theorem deleteNode_spec_witness :
    (deleteNode "x"
        { nodes := [], edges := [], selectedNodeIds := ["x", "y"],
          nodesToRun := [] }).selectedNodeIds = ["y"] ∧
    ("y" ∈ (deleteNode "x"
        { nodes := [], edges := [], selectedNodeIds := ["x", "y"],
          nodesToRun := [] }).selectedNodeIds ↔
      ("y" ∈ ["x", "y"] ∧ "y" ≠ "x")) := by
  constructor
  · decide
  · exact (deleteNode_spec
      { nodes := [], edges := [], selectedNodeIds := ["x", "y"],
        nodesToRun := [] } "x").2.2.1 "y"

/-- Claim C10: `updateBlockStatus(id, s, e)` rewrites exactly the
status and error of every node whose id matches, copying every other
node field and data field verbatim, and leaves nodes with other ids,
the edges, the selection and the run queue unchanged.  Because the
`error` property is always written, passing `none` (an omitted JS
argument) erases any previously stored error. -/
theorem updateBlockStatus_spec (st : CanvasState) (nodeId : String)
    (s : BlockStatus) (e : Option String) :
    (updateBlockStatus nodeId s e st).edges = st.edges ∧
    (updateBlockStatus nodeId s e st).selectedNodeIds = st.selectedNodeIds ∧
    (updateBlockStatus nodeId s e st).nodesToRun = st.nodesToRun ∧
    List.Forall₂
      (fun n n' =>
        (n.id ≠ nodeId → n' = n) ∧
        (n.id = nodeId →
          n'.id = n.id ∧ n'.nodeType = n.nodeType ∧
          n'.position = n.position ∧ n'.selected = n.selected ∧
          n'.data.type = n.data.type ∧ n'.data.title = n.data.title ∧
          n'.data.content = n.data.content ∧
          n'.data.imageUrl = n.data.imageUrl ∧
          n'.data.imageId = n.data.imageId ∧
          n'.data.source = n.data.source ∧
          n'.data.prompt = n.data.prompt ∧
          n'.data.model = n.data.model ∧
          n'.data.jobId = n.data.jobId ∧
          n'.data.sourceBlockId = n.data.sourceBlockId ∧
          n'.data.autoRun = n.data.autoRun ∧
          n'.data.status = s ∧ n'.data.error = e))
      st.nodes (updateBlockStatus nodeId s e st).nodes := by
  refine ⟨rfl, rfl, rfl, ?_⟩
  have h : (updateBlockStatus nodeId s e st).nodes
      = st.nodes.map (fun n =>
          if n.id == nodeId then
            { n with data := { n.data with status := s, error := e } }
          else n) := rfl
  rw [h, List.forall₂_map_right_iff]
  apply List.forall₂_same.mpr
  intro n hn
  by_cases hid : n.id = nodeId
  · simp [hid]
  · simp [hid]

/-- Witness for C10 at a concrete store: a status update without an
explicit error erases the node's prior error message. -/
theorem updateBlockStatus_spec_witness :
    List.Forall₂
      (fun n n' =>
        (n.id ≠ "n1" → n' = n) ∧
        (n.id = "n1" →
          n'.id = n.id ∧ n'.nodeType = n.nodeType ∧
          n'.position = n.position ∧ n'.selected = n.selected ∧
          n'.data.type = n.data.type ∧ n'.data.title = n.data.title ∧
          n'.data.content = n.data.content ∧
          n'.data.imageUrl = n.data.imageUrl ∧
          n'.data.imageId = n.data.imageId ∧
          n'.data.source = n.data.source ∧
          n'.data.prompt = n.data.prompt ∧
          n'.data.model = n.data.model ∧
          n'.data.jobId = n.data.jobId ∧
          n'.data.sourceBlockId = n.data.sourceBlockId ∧
          n'.data.autoRun = n.data.autoRun ∧
          n'.data.status = BlockStatus.success ∧ n'.data.error = none))
      [{ id := "n1", nodeType := "textBlock", position := { x := 0, y := 0 },
         selected := false,
         data := { type := BlockType.text, title := "", content := "c",
                   imageUrl := "", imageId := none, source := "",
                   prompt := none, model := "m", status := BlockStatus.error,
                   error := some "boom", jobId := none, sourceBlockId := none,
                   autoRun := false } }]
      (updateBlockStatus "n1" BlockStatus.success none
        { nodes := [{ id := "n1", nodeType := "textBlock",
                      position := { x := 0, y := 0 }, selected := false,
                      data := { type := BlockType.text, title := "",
                                content := "c", imageUrl := "",
                                imageId := none, source := "", prompt := none,
                                model := "m", status := BlockStatus.error,
                                error := some "boom", jobId := none,
                                sourceBlockId := none, autoRun := false } }],
          edges := [], selectedNodeIds := [], nodesToRun := [] }).nodes :=
  (updateBlockStatus_spec
    { nodes := [{ id := "n1", nodeType := "textBlock",
                  position := { x := 0, y := 0 }, selected := false,
                  data := { type := BlockType.text, title := "",
                            content := "c", imageUrl := "", imageId := none,
                            source := "", prompt := none, model := "m",
                            status := BlockStatus.error, error := some "boom",
                            jobId := none, sourceBlockId := none,
                            autoRun := false } }],
      edges := [], selectedNodeIds := [], nodesToRun := [] }
    "n1" BlockStatus.success none).2.2.2

/-! ## Input aggregation: claim C8 -/

/-- The per-block emission rule of `getInputBlockContent`: a text block
with non-empty trimmed content yields a trimmed text item, an image
block with a non-empty url yields an image item, anything else yields
nothing. -/
def itemOf (d : BlockData) : Option InputContentItem :=
  match d.type with
  | BlockType.text =>
      if jsTrim d.content ≠ "" then some (InputContentItem.textItem (jsTrim d.content))
      else none
  | BlockType.image =>
      if d.imageUrl ≠ "" then some (InputContentItem.imageItem d.imageUrl)
      else none

/-- Modelled from the claim's sentence: the input items "in
edge-insertion order over the edges targeting id" — walk the edges
targeting the node in insertion order and emit the item of each edge's
source block. -/
def inputContentEdgeOrder (st : CanvasState) (nodeId : String) :
    List InputContentItem :=
  ((st.edges.filter (fun e => e.target == nodeId)).map (fun e => e.source)).foldl
    (fun acc src =>
      match st.nodes.find? (fun n => n.id == src) with
      | some b =>
          match itemOf b.data with
          | some i => acc ++ [i]
          | none => acc
      | none => acc) []

/-- Reference version of the amended ordering: the contributing blocks
are taken in node-array order (the order of the store's `nodes` list),
keeping each node that is the source of some edge into `nodeId`. -/
def inputContentNodeOrder (st : CanvasState) (nodeId : String) :
    List InputContentItem :=
  (st.nodes.filter (fun n =>
      st.edges.any (fun e => e.target == nodeId && e.source == n.id))).filterMap
    (fun n => itemOf n.data)

/-- Folding the emission loop of `getInputBlockContent` is a
`filterMap` by `itemOf`. -/
theorem foldl_emit_eq_filterMap (l : List AppNode) (acc : List InputContentItem) :
    l.foldl
      (fun acc block =>
        match block.data.type with
        | BlockType.text =>
            if jsTrim block.data.content ≠ "" then
              acc ++ [InputContentItem.textItem (jsTrim block.data.content)]
            else acc
        | BlockType.image =>
            if block.data.imageUrl ≠ "" then
              acc ++ [InputContentItem.imageItem block.data.imageUrl]
            else acc)
      acc
      = acc ++ l.filterMap (fun n => itemOf n.data) := by
  induction l generalizing acc with
  | nil => simp
  | cons b rest ih =>
      simp only [List.foldl_cons, List.filterMap_cons]
      cases hb : b.data.type with
      | text =>
          by_cases hc : jsTrim b.data.content ≠ ""
          · simp only [hb, if_pos hc, ih, itemOf, hc, if_true, List.append_assoc,
              List.singleton_append]
          · simp only [hb, if_neg hc, ih, itemOf, hc, if_false]
      | image =>
          by_cases hc : b.data.imageUrl ≠ ""
          · simp only [hb, if_pos hc, ih, itemOf, hc, if_true, List.append_assoc,
              List.singleton_append]
          · simp only [hb, if_neg hc, ih, itemOf, hc, if_false]

/-- The `includes` test of `getInputBlocks` agrees with an existential
scan of the edge list. -/
theorem getInputBlocks_eq_filter (st : CanvasState) (nodeId : String) :
    getInputBlocks st nodeId
      = st.nodes.filter (fun n =>
          st.edges.any (fun e => e.target == nodeId && e.source == n.id)) := by
  unfold getInputBlocks
  apply List.filter_congr
  intro n _
  rw [Bool.eq_iff_iff]
  constructor
  · intro h
    have hmem : n.id ∈ (st.edges.filter (fun e => e.target == nodeId)).map
        (fun e => e.source) := by
      simpa using h
    obtain ⟨e, he, hsrc⟩ := List.mem_map.mp hmem
    obtain ⟨he2, htgt⟩ := List.mem_filter.mp he
    refine (List.any_eq_true).mpr ⟨e, he2, ?_⟩
    simp only [Bool.and_eq_true, beq_iff_eq] at htgt ⊢
    exact ⟨by simpa using htgt, hsrc⟩
  · intro h
    obtain ⟨e, he, hcond⟩ := (List.any_eq_true).mp h
    simp only [Bool.and_eq_true, beq_iff_eq] at hcond
    have : n.id ∈ (st.edges.filter (fun e => e.target == nodeId)).map
        (fun e => e.source) := by
      exact List.mem_map.mpr ⟨e, List.mem_filter.mpr ⟨he, by simp [hcond.1]⟩, hcond.2⟩
    simpa using this

/-- Claim C8 (amended): `getInputBlockContent(id)` returns, in
node-array order (not edge-insertion order), the trimmed text item of
every input text node with non-empty trimmed content and the image item
of every input image node with a non-empty url, skipping all other
input nodes. -/
theorem getInputBlockContent_spec (st : CanvasState) (nodeId : String) :
    getInputBlockContent st nodeId = inputContentNodeOrder st nodeId := by
  unfold getInputBlockContent inputContentNodeOrder
  rw [show getInputBlocks st nodeId
        = st.nodes.filter (fun n =>
            st.edges.any (fun e => e.target == nodeId && e.source == n.id))
      from getInputBlocks_eq_filter st nodeId]
  by_cases h : (st.nodes.filter (fun n =>
      st.edges.any (fun e => e.target == nodeId && e.source == n.id))).isEmpty
  · rw [if_pos h]
    rw [List.isEmpty_iff] at h
    rw [h]
    simp
  · rw [if_neg h]
    exact foldl_emit_eq_filterMap _ []

/-- Claim C8 counterexample: with the node array holding `A` before `B`
but the edges inserted `B → T` first, the code emits `A`'s item first
(node order), while the claimed edge-insertion order would emit `B`'s
item first. -/
theorem getInputBlockContent_order_counterexample :
    getInputBlockContent
        { nodes :=
            [{ id := "A", nodeType := "textBlock", position := { x := 0, y := 0 },
               selected := false,
               data := { type := BlockType.text, title := "", content := "a",
                         imageUrl := "", imageId := none, source := "",
                         prompt := none, model := "m",
                         status := BlockStatus.idle, error := none,
                         jobId := none, sourceBlockId := none,
                         autoRun := false } },
             { id := "B", nodeType := "textBlock", position := { x := 0, y := 0 },
               selected := false,
               data := { type := BlockType.text, title := "", content := "b",
                         imageUrl := "", imageId := none, source := "",
                         prompt := none, model := "m",
                         status := BlockStatus.idle, error := none,
                         jobId := none, sourceBlockId := none,
                         autoRun := false } }],
          edges :=
            [{ id := "e1", source := "B", target := "T", edgeType := "animated" },
             { id := "e2", source := "A", target := "T", edgeType := "animated" }],
          selectedNodeIds := [], nodesToRun := [] } "T"
      = [InputContentItem.textItem "a", InputContentItem.textItem "b"] ∧
    inputContentEdgeOrder
        { nodes :=
            [{ id := "A", nodeType := "textBlock", position := { x := 0, y := 0 },
               selected := false,
               data := { type := BlockType.text, title := "", content := "a",
                         imageUrl := "", imageId := none, source := "",
                         prompt := none, model := "m",
                         status := BlockStatus.idle, error := none,
                         jobId := none, sourceBlockId := none,
                         autoRun := false } },
             { id := "B", nodeType := "textBlock", position := { x := 0, y := 0 },
               selected := false,
               data := { type := BlockType.text, title := "", content := "b",
                         imageUrl := "", imageId := none, source := "",
                         prompt := none, model := "m",
                         status := BlockStatus.idle, error := none,
                         jobId := none, sourceBlockId := none,
                         autoRun := false } }],
          edges :=
            [{ id := "e1", source := "B", target := "T", edgeType := "animated" },
             { id := "e2", source := "A", target := "T", edgeType := "animated" }],
          selectedNodeIds := [], nodesToRun := [] } "T"
      = [InputContentItem.textItem "b", InputContentItem.textItem "a"] ∧
    [InputContentItem.textItem "a", InputContentItem.textItem "b"]
      ≠ [InputContentItem.textItem "b", InputContentItem.textItem "a"] := by
  refine ⟨by decide, by decide, by decide⟩

/-! ## Run scheduler: claim C6 -/

/-- Invariant of the run-queue drain loop relative to the queued ids:
queued ids have not executed yet, nothing executes twice, only queued
ids execute, and an id of the original batch that has left the queue has
executed exactly once. -/
def RunInv (ids : List String) (p : CanvasState × List String) : Prop :=
  (∀ x, x ∈ p.1.nodesToRun → p.2.count x = 0) ∧
  (∀ x, p.2.count x ≤ 1) ∧
  (∀ x, x ∈ p.2 → x ∈ ids) ∧
  (∀ x, x ∈ ids → x ∉ p.1.nodesToRun → p.2.count x = 1) ∧
  (∀ x, x ∈ p.1.nodesToRun → x ∈ ids)

/-- Case split for one drain-effect evaluation. -/
theorem runStep_cases (acc : CanvasState × List String) (p : String × BlockStatus) :
    (p.1 ∈ acc.1.nodesToRun ∧ p.2 ≠ BlockStatus.running ∧
      runStep acc p = (clearNodeFromRunQueue p.1 acc.1, acc.2 ++ [p.1])) ∨
    ((p.1 ∉ acc.1.nodesToRun ∨ p.2 = BlockStatus.running) ∧ runStep acc p = acc) := by
  by_cases hmem : p.1 ∈ acc.1.nodesToRun
  · by_cases hst : p.2 = BlockStatus.running
    · right
      refine ⟨Or.inr hst, ?_⟩
      simp [runStep, pollRunQueue, hst, hmem, List.elem_iff]
    · left
      refine ⟨hmem, hst, ?_⟩
      have hb : (p.2 == BlockStatus.running) = false := by
        simpa using hst
      simp [runStep, pollRunQueue, hb, List.elem_iff, hmem]
  · right
    refine ⟨Or.inl hmem, ?_⟩
    simp [runStep, pollRunQueue, hmem]

/-- Drain-effect evaluations preserve the run-queue invariant. -/
theorem runStep_preserves (ids : List String) (acc : CanvasState × List String)
    (p : String × BlockStatus) (h : RunInv ids acc) : RunInv ids (runStep acc p) := by
  rcases runStep_cases acc p with ⟨hmem, _, heq⟩ | ⟨_, heq⟩
  · obtain ⟨i1, i2, i3, i4, i5⟩ := h
    rw [heq]
    have hq : (clearNodeFromRunQueue p.1 acc.1).nodesToRun
        = acc.1.nodesToRun.filter (fun i => i != p.1) := rfl
    refine ⟨?_, ?_, ?_, ?_, ?_⟩
    · intro x hx
      rw [hq, List.mem_filter] at hx
      obtain ⟨hx1, hx2⟩ := hx
      have hne : x ≠ p.1 := by simpa using hx2
      simp [List.count_append, i1 x hx1, hne]
    · intro x
      by_cases hx : x = p.1
      · subst hx
        simp [List.count_append, i1 _ hmem]
      · simp [List.count_append, hx, i2 x]
    · intro x hx
      rcases List.mem_append.mp hx with hx | hx
      · exact i3 x hx
      · rcases List.mem_singleton.mp hx with rfl
        exact i5 _ hmem
    · intro x hxids hxq
      rw [hq, List.mem_filter] at hxq
      by_cases hx : x = p.1
      · subst hx
        simp [List.count_append, i1 _ hmem]
      · have hxq' : x ∉ acc.1.nodesToRun := by
          intro hc
          exact hxq ⟨hc, by simpa using hx⟩
        simp [List.count_append, hx, i4 x hxids hxq']
    · intro x hx
      rw [hq, List.mem_filter] at hx
      exact i5 x hx.1
  · rw [heq]
    exact h

/-- The invariant survives any sequence of drain-effect evaluations. -/
theorem foldl_runStep_inv (ids : List String) (polls : List (String × BlockStatus))
    (acc : CanvasState × List String) (h : RunInv ids acc) :
    RunInv ids (polls.foldl runStep acc) := by
  induction polls generalizing acc with
  | nil => exact h
  | cons p rest ih => exact ih _ (runStep_preserves ids acc p h)

/-- The run queue never regains an id. -/
theorem foldl_runStep_shrink (polls : List (String × BlockStatus)) (x : String) :
    ∀ acc, x ∉ acc.1.nodesToRun → x ∉ (polls.foldl runStep acc).1.nodesToRun := by
  induction polls with
  | nil => intro acc h; exact h
  | cons p rest ih =>
      intro acc h
      apply ih
      rcases runStep_cases acc p with ⟨_, _, heq⟩ | ⟨_, heq⟩
      · rw [heq]
        intro hc
        exact h (List.mem_filter.mp hc).1
      · rw [heq]; exact h

/-- After an id polls the queue while not Running, it is out of the
queue for good. -/
theorem foldl_runStep_polled (polls : List (String × BlockStatus)) :
    ∀ acc x s, (x, s) ∈ polls → s ≠ BlockStatus.running →
      x ∉ (polls.foldl runStep acc).1.nodesToRun := by
  induction polls with
  | nil => intro _ x s h; simp at h
  | cons p rest ih =>
      intro acc x s hmem hs
      rcases List.mem_cons.mp hmem with heq | hmem'
      · have hx : p.1 = x := by rw [← heq]
        have hps : p.2 = s := by rw [← heq]
        rw [List.foldl_cons]
        apply foldl_runStep_shrink
        rcases runStep_cases acc p with ⟨_, _, heq2⟩ | ⟨hcase, heq2⟩
        · rw [heq2]
          intro hc
          have := (List.mem_filter.mp hc).2
          simp [hx] at this
        · rw [heq2]
          rcases hcase with hout | hrun
          · rw [hx] at hout; exact hout
          · rw [hps] at hrun; exact absurd hrun hs
      · exact ih _ x s hmem' hs

/-- Claim C6: `requestRunForNodes(ids)` replaces the run queue wholesale
with `ids`; a node polling while Running never fires; over any sequence
of poll-and-dequeue evaluations no id fires twice, only batched ids
fire, and an id of the batch that polls at least once while not Running
fires exactly once. -/
theorem runScheduler_spec (st : CanvasState) (ids : List String)
    (polls : List (String × BlockStatus)) :
    (requestRunForNodes ids st).nodesToRun = ids ∧
    (∀ x st2, pollRunQueue x BlockStatus.running st2 = (st2, false)) ∧
    (∀ x, ((runPolls polls (requestRunForNodes ids st)).2).count x ≤ 1) ∧
    (∀ x, x ∈ (runPolls polls (requestRunForNodes ids st)).2 → x ∈ ids) ∧
    (∀ x s, x ∈ ids → s ≠ BlockStatus.running → (x, s) ∈ polls →
      ((runPolls polls (requestRunForNodes ids st)).2).count x = 1) := by
  have hinit : RunInv ids (requestRunForNodes ids st, []) := by
    refine ⟨?_, ?_, ?_, ?_, ?_⟩
    · intro x _; simp
    · intro x; simp
    · intro x hx; simp at hx
    · intro x hx hq
      exact absurd hx hq
    · intro x hx; exact hx
  have hfold := foldl_runStep_inv ids polls _ hinit
  refine ⟨rfl, ?_, ?_, ?_, ?_⟩
  · intro x st2
    simp [pollRunQueue]
  · intro x
    exact hfold.2.1 x
  · intro x hx
    exact hfold.2.2.1 x hx
  · intro x s hxids hs hmem
    have hout := foldl_runStep_polled polls (requestRunForNodes ids st, []) x s hmem hs
    exact hfold.2.2.2.1 x hxids hout

/-- Witness for C6: batching three ids and letting them poll in an
interleaving with a repeat poll executes each exactly once. -/
theorem runScheduler_spec_witness :
    ((runPolls
        [("a", BlockStatus.idle), ("b", BlockStatus.idle),
         ("a", BlockStatus.idle), ("c", BlockStatus.idle)]
        (requestRunForNodes ["a", "b", "c"]
          { nodes := [], edges := [], selectedNodeIds := [],
            nodesToRun := [] })).2).count "a" = 1 :=
  (runScheduler_spec
    { nodes := [], edges := [], selectedNodeIds := [], nodesToRun := [] }
    ["a", "b", "c"]
    [("a", BlockStatus.idle), ("b", BlockStatus.idle),
     ("a", BlockStatus.idle), ("c", BlockStatus.idle)]).2.2.2.2 "a"
    BlockStatus.idle (by decide) (by decide) (by decide)

/-! ## Job recovery: claim C5 -/

/-- With a constant present job id, renders after the first change
nothing and fetch nothing. -/
theorem recoveryRenders_latched (j : String) (obs : List (Option String))
    (h : ∀ o ∈ obs, o = some j) (k : Nat) :
    obs.foldl
      (fun acc obs =>
        let step := recoveryRenderStep acc.1 obs
        (step.1, acc.2 + (if step.2 then 1 else 0)))
      (true, k) = (true, k) := by
  induction obs with
  | nil => rfl
  | cons o rest ih =>
      have ho := h o (List.mem_cons_self o rest)
      subst ho
      simp only [List.foldl_cons, recoveryRenderStep]
      exact ih (fun o ho => h o (List.mem_cons_of_mem _ ho))

/-- Claim C5 (amended): over any nonempty sequence of renders observing
the same present job id, the recovery effect fetches the job status
exactly once; the guard resets only on a cleared job id; a completed job
with a result, a failed job and a cancelled job get their done/error/
cancelled handling applied directly with no stream opened (a completed
job without a result gets nothing); a pending or running job opens the
subscription, and nothing else does. -/
theorem jobRecovery_spec (host : String) (job : Job)
    (obs : List (Option String)) (j : String) :
    (obs ≠ [] → (∀ o ∈ obs, o = some j) → (recoveryRenders obs false).2 = 1) ∧
    (∀ a o, (recoveryRenderStep a o).1 = false → o = none) ∧
    (∀ r, job.status = JobStatus.completed → job.result = some r →
      recoverAction host job
          = RecoveryAction.applyDone { r with imageUrl := addApiHost host r.imageUrl } ∧
      opensStream (recoverAction host job) = false) ∧
    (job.status = JobStatus.failed →
      (∃ m, recoverAction host job = RecoveryAction.applyError m) ∧
      opensStream (recoverAction host job) = false) ∧
    (job.status = JobStatus.cancelled →
      recoverAction host job = RecoveryAction.applyCancelled ∧
      opensStream (recoverAction host job) = false) ∧
    ((job.status = JobStatus.pending ∨ job.status = JobStatus.running) ↔
      recoverAction host job = RecoveryAction.subscribe) := by
  refine ⟨?_, ?_, ?_, ?_, ?_, ?_⟩
  · intro hne hall
    cases obs with
    | nil => exact absurd rfl hne
    | cons o rest =>
        have ho := hall o (List.mem_cons_self o rest)
        subst ho
        have hrest : ∀ o ∈ rest, o = some j :=
          fun o ho => hall o (List.mem_cons_of_mem _ ho)
        have hstep : recoveryRenders (some j :: rest) false
            = rest.foldl
                (fun acc obs =>
                  let step := recoveryRenderStep acc.1 obs
                  (step.1, acc.2 + (if step.2 then 1 else 0)))
                (true, 1) := rfl
        rw [hstep, recoveryRenders_latched j rest hrest 1]
  · intro a o h
    cases o with
    | none => rfl
    | some v =>
        cases a <;> simp [recoveryRenderStep] at h
  · intro r hs hr
    cases job with
    | mk status result error =>
        simp at hs hr
        subst hs
        subst hr
        exact ⟨rfl, rfl⟩
  · intro hs
    cases job with
    | mk status result error =>
        simp at hs
        subst hs
        cases result <;> exact ⟨⟨_, rfl⟩, rfl⟩
  · intro hs
    cases job with
    | mk status result error =>
        simp at hs
        subst hs
        cases result <;> exact ⟨rfl, rfl⟩
  · cases job with
    | mk status result error =>
        cases status <;> cases result <;>
          simp [recoverAction]

/-- Claim C5 counterexample: a completed job carrying no result is
terminal, yet the recovery effect applies no done handling at all (it
falls through every branch). -/
theorem jobRecovery_noResult_counterexample :
    recoverAction "" { status := JobStatus.completed } = RecoveryAction.nothing ∧
    isApplyDone (recoverAction "" { status := JobStatus.completed }) = false := by
  exact ⟨rfl, rfl⟩

/-- Witness for C5: two renders of a node rehydrated with job id `j`
fetch the status exactly once, and a pending job subscribes. -/
theorem jobRecovery_spec_witness :
    (recoveryRenders [some "j", some "j"] false).2 = 1 ∧
    recoverAction "" { status := JobStatus.pending } = RecoveryAction.subscribe :=
  ⟨(jobRecovery_spec "" { status := JobStatus.pending } [some "j", some "j"] "j").1
      (by decide) (by decide),
    (jobRecovery_spec "" { status := JobStatus.pending } [some "j", some "j"] "j").2.2.2.2.2.mp
      (Or.inl rfl)⟩

/-! ## Text job stream handling: claim C3 -/

/-- Existence of the target node survives an id-preserving rewrite. -/
theorem findNode_updateBlockData_some (st : CanvasState) (id : String)
    (p : BlockDataPatch) (n : AppNode) (h : findNode st id = some n) :
    findNode (updateBlockData id p st) id
      = some { n with data := applyPatch n.data p } := by
  rw [findNode_updateBlockData, h, Option.map_some']

/-- Existence of the target node survives a status rewrite. -/
theorem findNode_updateBlockStatus_some (st : CanvasState) (id : String)
    (s : BlockStatus) (e : Option String) (n : AppNode)
    (h : findNode st id = some n) :
    findNode (updateBlockStatus id s e st) id
      = some { n with data := { n.data with status := s, error := e } } := by
  rw [findNode_updateBlockStatus, h, Option.map_some']

/-- Claim C3: on a text job subscription, a chunk event replaces the
node's content with the chunk text (no client-side concatenation, and
status and job id untouched); a done event stores the result text,
clears the job id and sets Success; an error event clears the job id
and sets Error with the message; a cancelled event clears the job id
and sets Idle; and the concrete scenario chunk "Hel", chunk "Hello",
done "Hello world" leaves the node with content "Hello world", Success
and no job id. -/
theorem textJobStream_spec (st : CanvasState) (id : String) :
    (∀ t n, findNode st id = some n →
      ∃ n', findNode (applyTextJobEvent id (JobEvent.chunk t) st) id = some n' ∧
        n'.data.content = t ∧ n'.data.jobId = n.data.jobId ∧
        n'.data.status = n.data.status ∧ n'.data.error = n.data.error) ∧
    (∀ r n, findNode st id = some n →
      ∃ n', findNode (applyTextJobEvent id (JobEvent.done r) st) id = some n' ∧
        n'.data.content = r.text ∧ n'.data.status = BlockStatus.success ∧
        n'.data.jobId = none ∧ n'.data.error = none) ∧
    (∀ m n, findNode st id = some n →
      ∃ n', findNode (applyTextJobEvent id (JobEvent.error m) st) id = some n' ∧
        n'.data.status = BlockStatus.error ∧ n'.data.error = some m ∧
        n'.data.jobId = none ∧ n'.data.content = n.data.content) ∧
    (∀ n, findNode st id = some n →
      ∃ n', findNode (applyTextJobEvent id JobEvent.cancelled st) id = some n' ∧
        n'.data.status = BlockStatus.idle ∧ n'.data.jobId = none ∧
        n'.data.content = n.data.content) := by
  refine ⟨?_, ?_, ?_, ?_⟩
  · intro t n h
    refine ⟨_, findNode_updateBlockData_some st id _ n h, ?_, ?_, ?_, ?_⟩ <;>
      simp [applyPatch]
  · intro r n h
    have h1 := findNode_updateBlockData_some st id
      { content := some r.text, jobId := some none } n h
    refine ⟨_, findNode_updateBlockStatus_some _ id _ _ _ h1, ?_, ?_, ?_, ?_⟩ <;>
      simp [applyPatch]
  · intro m n h
    have h1 := findNode_updateBlockData_some st id { jobId := some none } n h
    refine ⟨_, findNode_updateBlockStatus_some _ id _ _ _ h1, ?_, ?_, ?_, ?_⟩ <;>
      simp [applyPatch]
  · intro n h
    have h1 := findNode_updateBlockData_some st id { jobId := some none } n h
    refine ⟨_, findNode_updateBlockStatus_some _ id _ _ _ h1, ?_, ?_, ?_⟩ <;>
      simp [applyPatch]

/-- Witness for C3: the scenario of the spec, run on a concrete store:
chunks "Hel" then "Hello" then done "Hello world" leave content
"Hello world", Success and a cleared job id (the final state is reached
through the chunk and done parts of the theorem). -/
theorem textJobStream_spec_witness :
    (findNode
        ([JobEvent.chunk "Hel", JobEvent.chunk "Hello",
          JobEvent.done { text := "Hello world" }].foldl
          (fun s ev => applyTextJobEvent "N" ev s)
          { nodes := [{ id := "N", nodeType := "textBlock",
                        position := { x := 0, y := 0 }, selected := false,
                        data := { type := BlockType.text, title := "",
                                  content := "", imageUrl := "",
                                  imageId := none, source := "",
                                  prompt := some "p", model := "m",
                                  status := BlockStatus.running,
                                  error := none, jobId := some "job-1",
                                  sourceBlockId := none, autoRun := false } }],
            edges := [], selectedNodeIds := [], nodesToRun := [] }) "N").map
      (fun n => (n.data.content, n.data.status, n.data.jobId))
      = some ("Hello world", BlockStatus.success, none) ∧
    (∃ n', findNode (applyTextJobEvent "N" (JobEvent.chunk "Hel")
        { nodes := [{ id := "N", nodeType := "textBlock",
                      position := { x := 0, y := 0 }, selected := false,
                      data := { type := BlockType.text, title := "",
                                content := "", imageUrl := "",
                                imageId := none, source := "",
                                prompt := some "p", model := "m",
                                status := BlockStatus.running,
                                error := none, jobId := some "job-1",
                                sourceBlockId := none, autoRun := false } }],
          edges := [], selectedNodeIds := [], nodesToRun := [] }) "N" = some n' ∧
      n'.data.content = "Hel" ∧
      n'.data.jobId = some "job-1" ∧
      n'.data.status = BlockStatus.running ∧
      n'.data.error = none) := by
  constructor
  · decide
  · exact (textJobStream_spec
      { nodes := [{ id := "N", nodeType := "textBlock",
                    position := { x := 0, y := 0 }, selected := false,
                    data := { type := BlockType.text, title := "",
                              content := "", imageUrl := "",
                              imageId := none, source := "",
                              prompt := some "p", model := "m",
                              status := BlockStatus.running,
                              error := none, jobId := some "job-1",
                              sourceBlockId := none, autoRun := false } }],
        edges := [], selectedNodeIds := [], nodesToRun := [] } "N").1 "Hel"
      { id := "N", nodeType := "textBlock",
        position := { x := 0, y := 0 }, selected := false,
        data := { type := BlockType.text, title := "",
                  content := "", imageUrl := "",
                  imageId := none, source := "",
                  prompt := some "p", model := "m",
                  status := BlockStatus.running,
                  error := none, jobId := some "job-1",
                  sourceBlockId := none, autoRun := false } } (by decide)

/-! ## Cancellation: claim C4 -/

/-- Event delivery keeps the cleanup ref and the stream-open flag in
lock step. -/
theorem deliverEvent_sync (id : String) (ev : JobEvent) (s : StreamState)
    (h : s.cleanupRef = s.subOpen) :
    (deliverEvent id ev s).cleanupRef = (deliverEvent id ev s).subOpen := by
  by_cases ho : s.subOpen
  · cases ev <;> simp [deliverEvent, ho, h]
  · simp [deliverEvent, ho, h]

/-- The stream handlers keep the tracked node present. -/
theorem findNode_applyTextJobEvent_isSome (st : CanvasState) (id : String)
    (ev : JobEvent) :
    (findNode (applyTextJobEvent id ev st) id).isSome = (findNode st id).isSome := by
  cases ev <;>
    simp [applyTextJobEvent, findNode_updateBlockStatus,
      findNode_updateBlockData, Option.isSome_map]

/-- Event delivery keeps the tracked node present. -/
theorem deliverEvent_findNode_isSome (id : String) (ev : JobEvent)
    (s : StreamState) :
    (findNode (deliverEvent id ev s).store id).isSome
      = (findNode s.store id).isSome := by
  by_cases ho : s.subOpen
  · cases ev <;> simp [deliverEvent, ho, findNode_applyTextJobEvent_isSome]
  · simp [deliverEvent, ho]

/-- Folded event delivery keeps the synchronization invariant and the
tracked node. -/
theorem foldDeliver_props (id : String) (evs : List JobEvent) :
    ∀ s : StreamState, s.cleanupRef = s.subOpen →
      (evs.foldl (fun acc ev => deliverEvent id ev acc) s).cleanupRef
        = (evs.foldl (fun acc ev => deliverEvent id ev acc) s).subOpen ∧
      (findNode (evs.foldl (fun acc ev => deliverEvent id ev acc) s).store id).isSome
        = (findNode s.store id).isSome := by
  induction evs with
  | nil => intro s h; exact ⟨h, rfl⟩
  | cons ev rest ih =>
      intro s h
      have h1 := deliverEvent_sync id ev s h
      obtain ⟨hs', hn'⟩ := ih (deliverEvent id ev s) h1
      refine ⟨hs', ?_⟩
      rw [List.foldl_cons, hn', deliverEvent_findNode_isSome]

/-- Claim C4 (amended): a full `handleCancel` run — the awaited
server-side cancel (whose failure is only logged and changes nothing),
any stream events delivered while it is in flight, then the teardown
tail — always ends with the subscription closed, the cleanup ref
nulled, the node's job id cleared and its status Idle, and no event
delivered afterwards has any effect. -/
theorem handleCancel_spec (s : StreamState) (id : String) (evs : List JobEvent)
    (hsync : s.cleanupRef = s.subOpen) :
    (runCancel id evs s).subOpen = false ∧
    (runCancel id evs s).cleanupRef = false ∧
    (∀ n, findNode s.store id = some n →
      ∃ n', findNode (runCancel id evs s).store id = some n' ∧
        n'.data.status = BlockStatus.idle ∧ n'.data.jobId = none) ∧
    (∀ ev, deliverEvent id ev (runCancel id evs s) = runCancel id evs s) := by
  obtain ⟨hs1, hn1⟩ := foldDeliver_props id evs s hsync
  set s1 := evs.foldl (fun acc ev => deliverEvent id ev acc) s with hs1def
  have htail : runCancel id evs s = cancelTail id s1 := rfl
  have hflags : (cancelTail id s1).subOpen = false ∧
      (cancelTail id s1).cleanupRef = false := by
    by_cases hc : s1.cleanupRef
    · simp [cancelTail, hc]
    · have : s1.subOpen = false := by
        rw [← hs1]
        exact Bool.not_eq_true _ ▸ (by simpa using hc)
      simp [cancelTail, hc, this]
  refine ⟨htail ▸ hflags.1, htail ▸ hflags.2, ?_, ?_⟩
  · intro n hn
    have hsome : (findNode s1.store id).isSome = true := by
      rw [hn1, hn, Option.isSome_some]
    obtain ⟨n1, hn1'⟩ := Option.isSome_iff_exists.mp hsome
    have hstore : (cancelTail id s1).store
        = updateBlockStatus id BlockStatus.idle none
            (updateBlockData id { jobId := some none }
              (if s1.cleanupRef then
                  { s1 with subOpen := false, cleanupRef := false }
                else s1).store) := by
      by_cases hc : s1.cleanupRef <;> simp [cancelTail, hc]
    have hn2 : findNode (if s1.cleanupRef then
        { s1 with subOpen := false, cleanupRef := false } else s1).store id
        = some n1 := by
      by_cases hc : s1.cleanupRef <;> simp [hc, hn1']
    have hfind := findNode_updateBlockStatus_some _ id BlockStatus.idle none _
      (findNode_updateBlockData_some _ id { jobId := some none } n1 hn2)
    have hgoal : ∃ n', findNode (runCancel id evs s).store id = some n' ∧
        n'.data.status = BlockStatus.idle ∧ n'.data.jobId = none := by
      rw [htail, hstore]
      exact ⟨_, hfind, rfl, by simp [applyPatch]⟩
    exact hgoal
  · intro ev
    have : (runCancel id evs s).subOpen = false := htail ▸ hflags.1
    simp [deliverEvent, this]

/-- Claim C4 counterexample: the subscription is not torn down
synchronously — a done event delivered while the awaited cancel request
is in flight is processed and sets the node to Success (the tail of
`handleCancel` then resets it to Idle). -/
theorem handleCancel_lateDone_counterexample :
    (findNode (deliverEvent "N" (JobEvent.done { text := "late" })
        { store := { nodes := [{ id := "N", nodeType := "textBlock",
                                 position := { x := 0, y := 0 },
                                 selected := false,
                                 data := { type := BlockType.text, title := "",
                                           content := "", imageUrl := "",
                                           imageId := none, source := "",
                                           prompt := some "p", model := "m",
                                           status := BlockStatus.running,
                                           error := none, jobId := some "j",
                                           sourceBlockId := none,
                                           autoRun := false } }],
                     edges := [], selectedNodeIds := [], nodesToRun := [] },
          subOpen := true, cleanupRef := true }).store "N").map
      (fun n => n.data.status) = some BlockStatus.success ∧
    (findNode (runCancel "N" [JobEvent.done { text := "late" }]
        { store := { nodes := [{ id := "N", nodeType := "textBlock",
                                 position := { x := 0, y := 0 },
                                 selected := false,
                                 data := { type := BlockType.text, title := "",
                                           content := "", imageUrl := "",
                                           imageId := none, source := "",
                                           prompt := some "p", model := "m",
                                           status := BlockStatus.running,
                                           error := none, jobId := some "j",
                                           sourceBlockId := none,
                                           autoRun := false } }],
                     edges := [], selectedNodeIds := [], nodesToRun := [] },
          subOpen := true, cleanupRef := true }).store "N").map
      (fun n => (n.data.status, n.data.jobId))
      = some (BlockStatus.idle, none) := by
  exact ⟨by decide, by decide⟩

/-- Witness for C4 at a concrete stream state. -/
theorem handleCancel_spec_witness :
    (runCancel "N" []
        { store := { nodes := [], edges := [], selectedNodeIds := [],
                     nodesToRun := [] },
          subOpen := true, cleanupRef := true }).subOpen = false :=
  (handleCancel_spec
    { store := { nodes := [], edges := [], selectedNodeIds := [],
                 nodesToRun := [] },
      subOpen := true, cleanupRef := true } "N" [] rfl).1

/-! ## Adjacency semantics for `wouldCreateCycle` -/

/-- Head unfolding for neighbor lookup. -/
theorem adjNeighbors_cons (k : String) (vs : List String)
    (rest : List (String × List String)) (a : String) :
    adjNeighbors ((k, vs) :: rest) a = if k = a then vs else adjNeighbors rest a := by
  by_cases h : k = a
  · simp [adjNeighbors, h]
  · simp [adjNeighbors, h]

/-- Neighbor lookup on the empty adjacency list. -/
theorem adjNeighbors_nil (a : String) : adjNeighbors [] a = [] := rfl

/-- `adjInsert` appends one neighbor to exactly one key. -/
theorem adjNeighbors_adjInsert (adj : List (String × List String))
    (s t a : String) :
    adjNeighbors (adjInsert adj s t) a
      = if a = s then adjNeighbors adj a ++ [t] else adjNeighbors adj a := by
  induction adj with
  | nil =>
      by_cases h : a = s
      · subst h
        simp [adjInsert, adjNeighbors_cons, adjNeighbors_nil]
      · have h' : ¬ s = a := fun hh => h hh.symm
        simp [adjInsert, adjNeighbors_cons, adjNeighbors_nil, h, h']
  | cons p rest ih =>
      obtain ⟨k, vs⟩ := p
      simp only [adjInsert]
      by_cases hk : k = s
      · rw [if_pos hk]
        subst hk
        by_cases ha : k = a
        · subst ha
          simp [adjNeighbors_cons]
        · have ha' : ¬ a = k := fun hh => ha hh.symm
          simp [adjNeighbors_cons, ha, ha']
      · rw [if_neg hk]
        by_cases ha : k = a
        · subst ha
          have has : ¬ k = s := hk
          simp [adjNeighbors_cons, has]
        · simp [adjNeighbors_cons, ha, ih]

/-- Folding the edge list into the adjacency map collects, per source,
the targets in edge order. -/
theorem adjNeighbors_foldl (edges : List AppEdge) :
    ∀ (adj : List (String × List String)) (a : String),
      adjNeighbors (edges.foldl (fun acc e => adjInsert acc e.source e.target) adj) a
        = adjNeighbors adj a
            ++ (edges.filter (fun e => e.source == a)).map (fun e => e.target) := by
  induction edges with
  | nil => intro adj a; simp
  | cons e rest ih =>
      intro adj a
      rw [List.foldl_cons, ih, adjNeighbors_adjInsert]
      by_cases h : a = e.source
      · rw [if_pos h]
        have hb : (e.source == a) = true := by simp [h]
        simp [List.filter_cons, hb, List.append_assoc]
      · rw [if_neg h]
        have hb : (e.source == a) = false := by
          simp
          exact fun hh => h hh.symm
        simp [List.filter_cons, hb]

/-- Filtered-and-mapped targets are exactly the edge relation. -/
theorem mem_targets_iff (edges : List AppEdge) (a b : String) :
    (b ∈ (edges.filter (fun e => e.source == a)).map (fun e => e.target)) ↔
      HasEdge edges a b := by
  simp only [List.mem_map, List.mem_filter, beq_iff_eq, HasEdge]
  constructor
  · rintro ⟨e, ⟨he, hs⟩, ht⟩
    exact ⟨e, he, hs, ht⟩
  · rintro ⟨e, he, hs, ht⟩
    exact ⟨e, ⟨he, hs⟩, ht⟩

/-- The adjacency list built by `wouldCreateCycle` realizes the edge
relation of the edge list extended with the candidate edge. -/
theorem mem_buildAdjacency_iff (edges : List AppEdge) (s t a b : String) :
    (b ∈ adjNeighbors (buildAdjacency edges s t) a) ↔
      HasEdge (edges ++ [mkEdge s t]) a b := by
  unfold buildAdjacency
  rw [adjNeighbors_adjInsert, adjNeighbors_foldl edges [] a, adjNeighbors_nil,
    List.nil_append]
  have hsplit : HasEdge (edges ++ [mkEdge s t]) a b ↔
      HasEdge edges a b ∨ (a = s ∧ b = t) := by
    simp only [HasEdge, List.mem_append, List.mem_singleton]
    constructor
    · rintro ⟨e, he | he, hs, ht⟩
      · exact Or.inl ⟨e, he, hs, ht⟩
      · subst he
        right
        exact ⟨hs.symm, ht.symm⟩
    · rintro (⟨e, he, hs, ht⟩ | ⟨ha, hb⟩)
      · exact ⟨e, Or.inl he, hs, ht⟩
      · exact ⟨mkEdge s t, Or.inr rfl, by simp [mkEdge, ha], by simp [mkEdge, hb]⟩
  rw [hsplit]
  by_cases h : a = s
  · rw [if_pos h]
    rw [List.mem_append, mem_targets_iff, List.mem_singleton]
    constructor
    · rintro (he | rfl)
      · exact Or.inl he
      · exact Or.inr ⟨h, rfl⟩
    · rintro (he | ⟨_, rfl⟩)
      · exact Or.inl he
      · exact Or.inr rfl
  · rw [if_neg h, mem_targets_iff]
    constructor
    · exact Or.inl
    · rintro (he | ⟨ha, _⟩)
      · exact he
      · exact absurd ha h

/-- A node with a neighbor entry is a key of the adjacency map. -/
theorem mem_adjKeys_of_neighbors (adj : List (String × List String))
    (a : String) (h : adjNeighbors adj a ≠ []) : a ∈ adjKeys adj := by
  unfold adjNeighbors at h
  cases hf : adj.find? (fun p => p.1 == a) with
  | none => rw [hf] at h; exact absurd rfl h
  | some p =>
      have hm := List.mem_of_find?_eq_some hf
      have hp : p.1 = a := by simpa using List.find?_some hf
      rw [← hp]
      exact List.mem_map.mpr ⟨p, hm, rfl⟩

/-! ## Soundness of the DFS: a completed search that reports no cycle
certifies acyclicity -/

/-- Step relation of the adjacency list. -/
def NbrRel (adj : List (String × List String)) (a b : String) : Prop :=
  b ∈ adjNeighbors adj a

/-- Walking the step relation cannot leave a successor-closed set. -/
theorem stay_of_reflTransGen (adj : List (String × List String))
    (V S : List String)
    (hcl : ∀ w, w ∈ V → w ∉ S → ∀ v, v ∈ adjNeighbors adj w → v ∈ V ∧ v ∉ S)
    {v w : String} (h : Relation.ReflTransGen (NbrRel adj) v w) :
    v ∈ V → v ∉ S → w ∈ V ∧ w ∉ S := by
  induction h using Relation.ReflTransGen.head_induction_on with
  | refl => exact fun hv hvs => ⟨hv, hvs⟩
  | head step _ ih =>
      intro hv hvs
      obtain ⟨h1, h2⟩ := hcl _ hv hvs _ step
      exact ih h1 h2

/-- A node whose neighbors all landed outside the extended recursion
stack, in a set that is closed outside that stack, lies on no cycle. -/
theorem no_cycle_of_scanned (adj : List (String × List String))
    (V S : List String) (u : String)
    (hnbrs : ∀ v, v ∈ adjNeighbors adj u → v ∈ V ∧ v ∉ (u :: S))
    (hcl : ∀ w, w ∈ V → w ∉ (u :: S) →
      ∀ v, v ∈ adjNeighbors adj w → v ∈ V ∧ v ∉ (u :: S)) :
    ¬ Relation.TransGen (NbrRel adj) u u := by
  intro h
  obtain ⟨c, hstep, hrtg⟩ := Relation.TransGen.head'_iff.mp h
  obtain ⟨hc1, hc2⟩ := hnbrs c hstep
  exact (stay_of_reflTransGen adj V (u :: S) hcl hrtg hc1 hc2).2
    (List.mem_cons_self u S)

/-- Invariant of the DFS: every black node (visited, off the recursion
stack) has all successors black and lies on no cycle. -/
def BlackInv (adj : List (String × List String)) (V S : List String) : Prop :=
  ∀ w, w ∈ V → w ∉ S →
    (∀ v, v ∈ adjNeighbors adj w → v ∈ V ∧ v ∉ S) ∧
    ¬ Relation.TransGen (NbrRel adj) w w

/-- Soundness contract of `dfsNode` at a given fuel. -/
def NodeSound (adj : List (String × List String)) (fuel : Nat) : Prop :=
  ∀ u visited stack visited',
    u ∉ visited → (∀ x, x ∈ stack → x ∈ visited) → BlackInv adj visited stack →
    dfsNode adj fuel u visited stack = some (false, visited') →
    (∀ x, x ∈ visited → x ∈ visited') ∧ u ∈ visited' ∧ BlackInv adj visited' stack

/-- Soundness contract of `dfsNeighbors` at a given fuel. -/
def NbrsSound (adj : List (String × List String)) (fuel : Nat) : Prop :=
  ∀ ns visited stack visited',
    (∀ x, x ∈ stack → x ∈ visited) → BlackInv adj visited stack →
    dfsNeighbors adj (dfsNode adj fuel) ns visited stack = some (false, visited') →
    (∀ x, x ∈ visited → x ∈ visited') ∧ BlackInv adj visited' stack ∧
    (∀ n, n ∈ ns → n ∈ visited' ∧ n ∉ stack)

/-- `dfsNode` is sound when the neighbor loop below it is. -/
theorem nodeSound_of_nbrsSound (adj : List (String × List String)) (f : Nat)
    (hN : NbrsSound adj f) : NodeSound adj (f + 1) := by
  intro u visited stack visited' hu hss hinv hrun
  have hrun' : dfsNeighbors adj (dfsNode adj f) (adjNeighbors adj u)
      (u :: visited) (u :: stack) = some (false, visited') := hrun
  have hss' : ∀ x, x ∈ (u :: stack) → x ∈ (u :: visited) := by
    intro x hx
    rcases List.mem_cons.mp hx with rfl | hx
    · exact List.mem_cons_self _ _
    · exact List.mem_cons_of_mem _ (hss x hx)
  have hinv' : BlackInv adj (u :: visited) (u :: stack) := by
    intro w hw hws
    have hwne : w ≠ u := fun h => hws (h ▸ List.mem_cons_self u stack)
    have hw' : w ∈ visited := by
      rcases List.mem_cons.mp hw with h | h
      · exact absurd h hwne
      · exact h
    have hws' : w ∉ stack := fun h => hws (List.mem_cons_of_mem _ h)
    obtain ⟨hclw, hnc⟩ := hinv w hw' hws'
    refine ⟨?_, hnc⟩
    intro v hv
    obtain ⟨hv1, hv2⟩ := hclw v hv
    have hvne : v ≠ u := fun h => hu (h ▸ hv1)
    refine ⟨List.mem_cons_of_mem _ hv1, ?_⟩
    intro hc
    rcases List.mem_cons.mp hc with h | h
    · exact hvne h
    · exact hv2 h
  obtain ⟨hgrow, hinv2, hscan⟩ :=
    hN (adjNeighbors adj u) (u :: visited) (u :: stack) visited' hss' hinv' hrun'
  have hgrow' : ∀ x, x ∈ visited → x ∈ visited' :=
    fun x hx => hgrow x (List.mem_cons_of_mem _ hx)
  have huv : u ∈ visited' := hgrow u (List.mem_cons_self _ _)
  have hustack : u ∉ stack := fun h => hu (hss u h)
  refine ⟨hgrow', huv, ?_⟩
  intro w hw hws
  by_cases hwu : w = u
  · subst hwu
    have hnbrs : ∀ v, v ∈ adjNeighbors adj w → v ∈ visited' ∧ v ∉ (w :: stack) :=
      fun v hv => hscan v hv
    refine ⟨?_, ?_⟩
    · intro v hv
      obtain ⟨hv1, hv2⟩ := hnbrs v hv
      exact ⟨hv1, fun h => hv2 (List.mem_cons_of_mem _ h)⟩
    · exact no_cycle_of_scanned adj visited' stack w hnbrs
        (fun w' hw' hws' => (hinv2 w' hw' hws').1)
  · have hws' : w ∉ (u :: stack) := by
      intro h
      rcases List.mem_cons.mp h with h | h
      · exact hwu h
      · exact hws h
    obtain ⟨hclw, hnc⟩ := hinv2 w hw hws'
    refine ⟨?_, hnc⟩
    intro v hv
    obtain ⟨hv1, hv2⟩ := hclw v hv
    exact ⟨hv1, fun h => hv2 (List.mem_cons_of_mem _ h)⟩

/-- The neighbor loop is sound when `dfsNode` at the same fuel is. -/
theorem nbrsSound_of_nodeSound (adj : List (String × List String)) (f : Nat)
    (hNode : NodeSound adj f) : NbrsSound adj f := by
  intro ns
  induction ns with
  | nil =>
      intro visited stack visited' hss hinv hrun
      have hv : visited' = visited := by
        have := hrun
        simp [dfsNeighbors] at this
        exact this.symm
      subst hv
      refine ⟨fun x hx => hx, hinv, ?_⟩
      intro n hn
      simp at hn
  | cons n rest ih =>
      intro visited stack visited' hss hinv hrun
      by_cases hmem : n ∈ visited
      · by_cases hstk : n ∈ stack
        · have heq : dfsNeighbors adj (dfsNode adj f) (n :: rest) visited stack
              = some (true, visited) := by
            simp [dfsNeighbors, hmem, hstk]
          rw [heq] at hrun
          simp at hrun
        · have heq : dfsNeighbors adj (dfsNode adj f) (n :: rest) visited stack
              = dfsNeighbors adj (dfsNode adj f) rest visited stack := by
            simp [dfsNeighbors, hmem, hstk]
          rw [heq] at hrun
          obtain ⟨hg, hi, hs⟩ := ih visited stack visited' hss hinv hrun
          refine ⟨hg, hi, ?_⟩
          intro m hm
          rcases List.mem_cons.mp hm with rfl | hm
          · exact ⟨hg m hmem, hstk⟩
          · exact hs m hm
      · cases hd : dfsNode adj f n visited stack with
        | none =>
            have heq : dfsNeighbors adj (dfsNode adj f) (n :: rest) visited stack
                = none := by
              simp [dfsNeighbors, hmem, hd]
            rw [heq] at hrun
            simp at hrun
        | some p =>
            obtain ⟨b, v1⟩ := p
            cases b with
            | true =>
                have heq : dfsNeighbors adj (dfsNode adj f) (n :: rest) visited
                    stack = some (true, v1) := by
                  simp [dfsNeighbors, hmem, hd]
                rw [heq] at hrun
                simp at hrun
            | false =>
                have heq : dfsNeighbors adj (dfsNode adj f) (n :: rest) visited
                    stack = dfsNeighbors adj (dfsNode adj f) rest v1 stack := by
                  simp [dfsNeighbors, hmem, hd]
                rw [heq] at hrun
                obtain ⟨hg1, hn1, hinv1⟩ :=
                  hNode n visited stack v1 hmem hss hinv hd
                have hss1 : ∀ x, x ∈ stack → x ∈ v1 :=
                  fun x hx => hg1 x (hss x hx)
                obtain ⟨hg2, hinv2, hs2⟩ := ih v1 stack visited' hss1 hinv1 hrun
                refine ⟨fun x hx => hg2 x (hg1 x hx), hinv2, ?_⟩
                intro m hm
                rcases List.mem_cons.mp hm with rfl | hm
                · exact ⟨hg2 m hn1, fun h => hmem (hss m h)⟩
                · exact hs2 m hm

/-- Soundness of the two mutually recursive DFS functions, for every
fuel value. -/
theorem dfs_sound_all (adj : List (String × List String)) :
    ∀ fuel, NodeSound adj fuel ∧ NbrsSound adj fuel := by
  intro fuel
  induction fuel with
  | zero =>
      have hnode : NodeSound adj 0 := by
        intro u visited stack visited' _ _ _ hrun
        simp [dfsNode] at hrun
      exact ⟨hnode, nbrsSound_of_nodeSound adj 0 hnode⟩
  | succ f ih =>
      have hnode : NodeSound adj (f + 1) := nodeSound_of_nbrsSound adj f ih.2
      exact ⟨hnode, nbrsSound_of_nodeSound adj (f + 1) hnode⟩

/-- Soundness of the root loop: a completed run that reports no cycle
leaves every scanned key black under a black invariant with an empty
stack. -/
theorem dfsRoots_sound (adj : List (String × List String)) (fuel : Nat) :
    ∀ ks visited visited',
      BlackInv adj visited [] →
      dfsRoots adj fuel ks visited = some (false, visited') →
      (∀ x, x ∈ visited → x ∈ visited') ∧ BlackInv adj visited' [] ∧
        (∀ k, k ∈ ks → k ∈ visited') := by
  intro ks
  induction ks with
  | nil =>
      intro visited visited' hinv hrun
      have hv : visited' = visited := by
        have := hrun
        simp [dfsRoots] at this
        exact this.symm
      subst hv
      refine ⟨fun x hx => hx, hinv, ?_⟩
      intro k hk
      simp at hk
  | cons k rest ih =>
      intro visited visited' hinv hrun
      by_cases hk : k ∈ visited
      · have heq : dfsRoots adj fuel (k :: rest) visited
            = dfsRoots adj fuel rest visited := by
          simp [dfsRoots, hk]
        rw [heq] at hrun
        obtain ⟨hg, hi, hks⟩ := ih visited visited' hinv hrun
        refine ⟨hg, hi, ?_⟩
        intro m hm
        rcases List.mem_cons.mp hm with rfl | hm
        · exact hg m hk
        · exact hks m hm
      · cases hd : dfsNode adj fuel k visited [] with
        | none =>
            have heq : dfsRoots adj fuel (k :: rest) visited = none := by
              simp [dfsRoots, hk, hd]
            rw [heq] at hrun
            simp at hrun
        | some p =>
            obtain ⟨b, v1⟩ := p
            cases b with
            | true =>
                have heq : dfsRoots adj fuel (k :: rest) visited
                    = some (true, v1) := by
                  simp [dfsRoots, hk, hd]
                rw [heq] at hrun
                simp at hrun
            | false =>
                have heq : dfsRoots adj fuel (k :: rest) visited
                    = dfsRoots adj fuel rest v1 := by
                  simp [dfsRoots, hk, hd]
                rw [heq] at hrun
                obtain ⟨hg1, hk1, hinv1⟩ :=
                  (dfs_sound_all adj fuel).1 k visited [] v1 hk
                    (by intro x hx; simp at hx) hinv hd
                obtain ⟨hg2, hinv2, hks2⟩ := ih v1 visited' hinv1 hrun
                refine ⟨fun x hx => hg2 x (hg1 x hx), hinv2, ?_⟩
                intro m hm
                rcases List.mem_cons.mp hm with rfl | hm
                · exact hg2 m hk1
                · exact hks2 m hm

/-- The central soundness theorem: when `wouldCreateCycle` answers
`false`, the edge list extended with the candidate edge is acyclic. -/
theorem wouldCreateCycle_sound (edges : List AppEdge) (s t : String)
    (h : wouldCreateCycle edges s t = false) :
    Acyclic (edges ++ [mkEdge s t]) := by
  simp only [wouldCreateCycle] at h
  cases hrun : dfsRoots (buildAdjacency edges s t)
      ((adjNodes (buildAdjacency edges s t)).length + 1)
      (adjKeys (buildAdjacency edges s t)) [] with
  | none =>
      rw [hrun] at h
      simp at h
  | some p =>
      obtain ⟨b, v⟩ := p
      rw [hrun] at h
      simp at h
      subst h
      have hinv0 : BlackInv (buildAdjacency edges s t) [] [] := by
        intro w hw
        simp at hw
      obtain ⟨_, hinv, hkeys⟩ :=
        dfsRoots_sound (buildAdjacency edges s t) _ _ [] v hinv0 hrun
      intro n hn
      have hconv : Relation.TransGen (NbrRel (buildAdjacency edges s t)) n n := by
        refine Relation.TransGen.mono ?_ hn
        intro a b hab
        exact (mem_buildAdjacency_iff edges s t a b).mpr hab
      have hne : adjNeighbors (buildAdjacency edges s t) n ≠ [] := by
        obtain ⟨c, hstep, _⟩ := Relation.TransGen.head'_iff.mp hconv
        intro hnil
        rw [NbrRel, hnil] at hstep
        simp at hstep
      have hkv := hkeys n (mem_adjKeys_of_neighbors _ n hne)
      exact (hinv n hkv (by simp)).2 hconv

/-- One `onConnect` call preserves acyclicity. -/
theorem onConnect_step_acyclic (st : CanvasState) (c : Connection)
    (h : Acyclic st.edges) : Acyclic (onConnect c st).edges := by
  obtain ⟨src, tgt⟩ := c
  cases src with
  | none => exact h
  | some s =>
      cases tgt with
      | none => exact h
      | some t =>
          by_cases hempty : s = "" ∨ t = ""
          · simpa [onConnect, hempty] using h
          · by_cases hwc : wouldCreateCycle st.edges s t
            · simpa [onConnect, hempty, hwc] using h
            · have hfalse : wouldCreateCycle st.edges s t = false := by
                simpa using hwc
              have hac := wouldCreateCycle_sound st.edges s t hfalse
              simpa [onConnect, hempty, hwc] using hac

/-- Claim C1: starting from an acyclic edge set, any sequence of
`onConnect` calls leaves the edge set acyclic (self-loops included). -/
theorem onConnect_preserves_acyclic (st : CanvasState) (cs : List Connection)
    (h : Acyclic st.edges) :
    Acyclic ((cs.foldl (fun s c => onConnect c s) st).edges) := by
  induction cs generalizing st with
  | nil => exact h
  | cons c rest ih =>
      rw [List.foldl_cons]
      exact ih (onConnect c st) (onConnect_step_acyclic st c h)

/-- Witness for C1: the two-call sequence X→Y then Y→X on an empty
canvas ends acyclic. -/
theorem onConnect_preserves_acyclic_witness :
    Acyclic ((([{ source := some "X", target := some "Y" },
                { source := some "Y", target := some "X" }] :
        List Connection).foldl (fun s c => onConnect c s)
        { nodes := [], edges := [], selectedNodeIds := [],
          nodesToRun := [] }).edges) :=
  onConnect_preserves_acyclic
    { nodes := [], edges := [], selectedNodeIds := [], nodesToRun := [] }
    [{ source := some "X", target := some "Y" },
     { source := some "Y", target := some "X" }]
    acyclic_nil

/-- Claim C2: a connection whose insertion would make the graph cyclic
is rejected with the whole store left unchanged; a self-loop is always
rejected; and connecting X→Y then Y→X on an empty canvas keeps exactly
the first edge. -/
theorem onConnect_rejects_cycle (st : CanvasState) (s t : String) :
    (¬ Acyclic (st.edges ++ [mkEdge s t]) →
      onConnect { source := some s, target := some t } st = st) ∧
    (onConnect { source := some s, target := some s } st = st) ∧
    (onConnect { source := some "Y", target := some "X" }
        (onConnect { source := some "X", target := some "Y" }
          { nodes := [], edges := [], selectedNodeIds := [], nodesToRun := [] })
      = { nodes := [], edges := [mkEdge "X" "Y"], selectedNodeIds := [],
          nodesToRun := [] }) := by
  refine ⟨?_, ?_, ?_⟩
  · intro hcyc
    by_cases hempty : s = "" ∨ t = ""
    · simp [onConnect, hempty]
    · by_cases hwc : wouldCreateCycle st.edges s t
      · simp [onConnect, hempty, hwc]
      · exact absurd (wouldCreateCycle_sound st.edges s t (by simpa using hwc))
          hcyc
  · by_cases hempty : s = ""
    · simp [onConnect, hempty]
    · by_cases hwc : wouldCreateCycle st.edges s s
      · simp [onConnect, hempty, hwc]
      · exfalso
        have hac := wouldCreateCycle_sound st.edges s s (by simpa using hwc)
        exact hac s (Relation.TransGen.single
          ⟨mkEdge s s, by simp, rfl, rfl⟩)
  · decide

/-- Witness for C2: the degenerate self-loop A→A on an empty canvas is
rejected, via the cyclicity hypothesis discharged explicitly. -/
theorem onConnect_rejects_cycle_witness :
    onConnect { source := some "A", target := some "A" }
        { nodes := [], edges := [], selectedNodeIds := [], nodesToRun := [] }
      = { nodes := [], edges := [], selectedNodeIds := [], nodesToRun := [] } :=
  (onConnect_rejects_cycle
    { nodes := [], edges := [], selectedNodeIds := [], nodesToRun := [] }
    "A" "A").1
    (fun hac => hac "A"
      (Relation.TransGen.single ⟨mkEdge "A" "A", by simp, rfl, rfl⟩))

/-! ## Lineage BFS correctness: claim C7 -/

/-- Characterization of the inner scan loop: it appends to the
collected set and the queue the same block of fresh neighbors, without
duplicates, covering everything scanned. -/
theorem bfsScan_spec : ∀ (xs seen acc : List String), ∃ added,
    bfsScan xs seen acc = (seen ++ added, acc ++ added) ∧ added.Nodup ∧
    (∀ x, x ∈ added → x ∈ xs ∧ x ∉ seen) ∧
    (∀ x, x ∈ xs → x ∈ seen ++ added) := by
  intro xs
  induction xs with
  | nil =>
      intro seen acc
      exact ⟨[], by simp [bfsScan], by simp, by simp, by simp⟩
  | cons x rest ih =>
      intro seen acc
      by_cases hx : x ∈ seen
      · obtain ⟨added, heq, hnd, hmem, hcov⟩ := ih seen acc
        refine ⟨added, ?_, hnd, ?_, ?_⟩
        · simp [bfsScan, hx, heq]
        · intro y hy
          obtain ⟨h1, h2⟩ := hmem y hy
          exact ⟨List.mem_cons_of_mem _ h1, h2⟩
        · intro y hy
          rcases List.mem_cons.mp hy with rfl | hy'
          · exact List.mem_append.mpr (Or.inl hx)
          · exact hcov y hy'
      · obtain ⟨added, heq, hnd, hmem, hcov⟩ := ih (seen ++ [x]) (acc ++ [x])
        refine ⟨x :: added, ?_, ?_, ?_, ?_⟩
        · have hstep : bfsScan (x :: rest) seen acc
              = bfsScan rest (seen ++ [x]) (acc ++ [x]) := by
            simp [bfsScan, hx]
          rw [hstep, heq]
          simp
        · refine List.nodup_cons.mpr ⟨?_, hnd⟩
          intro hc
          have := (hmem x hc).2
          simp at this
        · intro y hy
          rcases List.mem_cons.mp hy with rfl | hy'
          · exact ⟨List.mem_cons_self _ _, hx⟩
          · obtain ⟨h1, h2⟩ := hmem y hy'
            refine ⟨List.mem_cons_of_mem _ h1, ?_⟩
            intro hc
            exact h2 (List.mem_append.mpr (Or.inl hc))
        · intro y hy
          rcases List.mem_cons.mp hy with rfl | hy'
          · simp
          · have := hcov y hy'
            simp only [List.mem_append, List.mem_singleton, List.mem_cons] at this ⊢
            tauto

/-- Soundness of the BFS: everything collected is reachable from a
queue entry (or was already collected). -/
theorem bfsAux_sound (nbrs : String → List String) :
    ∀ fuel queue seen seen', bfsAux nbrs fuel queue seen = some seen' →
      ∀ w, w ∈ seen' → w ∈ seen ∨
        ∃ q, q ∈ queue ∧ Relation.TransGen (fun a b => b ∈ nbrs a) q w := by
  intro fuel
  induction fuel with
  | zero =>
      intro queue seen seen' h
      simp [bfsAux] at h
  | succ f ih =>
      intro queue seen seen' h w hw
      cases queue with
      | nil =>
          have hv : seen = seen' := by simpa [bfsAux] using h
          exact Or.inl (hv ▸ hw)
      | cons c rest =>
          simp only [bfsAux] at h
          obtain ⟨added, hpair, _, hmem, _⟩ := bfsScan_spec (nbrs c) seen []
          rw [hpair] at h
          rcases ih _ _ _ h w hw with hseen | ⟨q, hq, htg⟩
          · rcases List.mem_append.mp hseen with h1 | h2
            · exact Or.inl h1
            · exact Or.inr ⟨c, List.mem_cons_self _ _,
                Relation.TransGen.single (hmem w h2).1⟩
          · rcases List.mem_append.mp (by simpa using hq) with hq1 | hq2
            · exact Or.inr ⟨q, List.mem_cons_of_mem _ hq1, htg⟩
            · exact Or.inr ⟨c, List.mem_cons_self _ _,
                Relation.TransGen.head (hmem q hq2).1 htg⟩

/-- Completeness of the BFS on a terminating run: queue entries get
fully expanded and the final collected set is successor-closed. -/
theorem bfsAux_complete (nbrs : String → List String) :
    ∀ fuel queue seen seen',
      bfsAux nbrs fuel queue seen = some seen' →
      (∀ w, w ∈ seen → (∀ v, v ∈ nbrs w → v ∈ seen) ∨ w ∈ queue) →
      (∀ x, x ∈ seen → x ∈ seen') ∧
      (∀ q, q ∈ queue → ∀ v, v ∈ nbrs q → v ∈ seen') ∧
      (∀ w, w ∈ seen' → ∀ v, v ∈ nbrs w → v ∈ seen') := by
  intro fuel
  induction fuel with
  | zero =>
      intro queue seen seen' h
      simp [bfsAux] at h
  | succ f ih =>
      intro queue seen seen' h hinv
      cases queue with
      | nil =>
          have hv : seen = seen' := by simpa [bfsAux] using h
          subst hv
          refine ⟨fun x hx => hx, ?_, ?_⟩
          · intro q hq
            simp at hq
          · intro w hw v hv
            rcases hinv w hw with hcl | hq
            · exact hcl v hv
            · simp at hq
      | cons c rest =>
          simp only [bfsAux] at h
          obtain ⟨added, hpair, _, _, hcov⟩ := bfsScan_spec (nbrs c) seen []
          rw [hpair] at h
          have hinv1 : ∀ w, w ∈ seen ++ added →
              (∀ v, v ∈ nbrs w → v ∈ seen ++ added) ∨
                w ∈ rest ++ ([] ++ added) := by
            intro w hw
            rcases List.mem_append.mp hw with hw1 | hw2
            · rcases hinv w hw1 with hcl | hq
              · exact Or.inl
                  (fun v hv => List.mem_append.mpr (Or.inl (hcl v hv)))
              · rcases List.mem_cons.mp hq with rfl | hq'
                · exact Or.inl (fun v hv => hcov v hv)
                · exact Or.inr (by simp [hq'])
            · exact Or.inr (by simp [hw2])
          obtain ⟨hg, hq, hcl⟩ := ih _ _ _ h hinv1
          refine ⟨?_, ?_, hcl⟩
          · intro x hx
            exact hg x (List.mem_append.mpr (Or.inl hx))
          · intro q hqm v hv
            rcases List.mem_cons.mp hqm with rfl | hq'
            · exact hg v (hcov v hv)
            · exact hq q (by simp [hq']) v hv

/-- Number of universe nodes not yet collected; the termination measure
of the BFS. -/
def countNew (uni seen : List String) : Nat :=
  uni.countP (fun x => decide (¬ x ∈ seen))

/-- The measure is antitone in the collected set. -/
theorem countNew_mono (uni : List String) {s1 s2 : List String}
    (h : ∀ x, x ∈ s1 → x ∈ s2) : countNew uni s2 ≤ countNew uni s1 := by
  apply List.countP_mono_left
  intro x _ hx
  simp only [decide_eq_true_eq] at hx ⊢
  exact fun hc => hx (h x hc)

/-- Collecting one genuinely new universe node strictly shrinks the
measure. -/
theorem countNew_snoc (uni : List String) (s : List String) (a : String)
    (ha : a ∈ uni) (hs : a ∉ s) : countNew uni (s ++ [a]) < countNew uni s := by
  induction uni with
  | nil => simp at ha
  | cons u rest ih =>
      unfold countNew at ih ⊢
      simp only [List.countP_cons]
      have hmono : List.countP (fun x => decide (¬ x ∈ s ++ [a])) rest
          ≤ List.countP (fun x => decide (¬ x ∈ s)) rest := by
        apply List.countP_mono_left
        intro x _ hx
        simp only [decide_eq_true_eq] at hx ⊢
        exact fun hc => hx (by simp [hc])
      by_cases hua : u = a
      · subst hua
        have h1 : (decide (¬ u ∈ s ++ [u]) : Bool) = false := by simp
        have h2 : (decide (¬ u ∈ s) : Bool) = true := by simp [hs]
        rw [h1, h2]
        simp only [Bool.false_eq_true, if_false, if_true]
        omega
      · have ha' : a ∈ rest := by
          rcases List.mem_cons.mp ha with h | h
          · exact absurd h.symm hua
          · exact h
        have hlt := ih ha'
        by_cases hu : u ∈ s
        · have h1 : (decide (¬ u ∈ s ++ [a]) : Bool) = false := by simp [hu]
          have h2 : (decide (¬ u ∈ s) : Bool) = false := by simp [hu]
          rw [h1, h2]
          simpa using hlt
        · have h1 : (decide (¬ u ∈ s ++ [a]) : Bool) = true := by
            simp [hu, hua]
          have h2 : (decide (¬ u ∈ s) : Bool) = true := by simp [hu]
          rw [h1, h2]
          simp only [if_true]
          omega

/-- Collecting a block of fresh universe nodes pays for its length. -/
theorem countNew_append (uni : List String) :
    ∀ (added s : List String), added.Nodup →
      (∀ x, x ∈ added → x ∈ uni ∧ x ∉ s) →
      countNew uni (s ++ added) + added.length ≤ countNew uni s := by
  intro added
  induction added with
  | nil => intro s _ _; simp
  | cons a rest ih =>
      intro s hnd hmem
      have hrest : ∀ x, x ∈ rest → x ∈ uni ∧ x ∉ s ++ [a] := by
        intro x hx
        obtain ⟨h1, h2⟩ := hmem x (List.mem_cons_of_mem _ hx)
        refine ⟨h1, ?_⟩
        intro hc
        rcases List.mem_append.mp hc with hc | hc
        · exact h2 hc
        · rcases List.mem_singleton.mp hc with rfl
          exact (List.nodup_cons.mp hnd).1 hx
      have h1 := ih (s ++ [a]) (List.nodup_cons.mp hnd).2 hrest
      have h2 := countNew_snoc uni s a (hmem a (List.mem_cons_self _ _)).1
        (hmem a (List.mem_cons_self _ _)).2
      have hassoc : s ++ a :: rest = (s ++ [a]) ++ rest := by
        simp
      rw [hassoc]
      simp only [List.length_cons]
      omega

/-- The BFS terminates within its fuel: with fuel at least the queue
length plus the number of uncollected universe nodes plus one, the run
completes. -/
theorem bfsAux_isSome (nbrs : String → List String) (uni : List String)
    (huni : ∀ c x, x ∈ nbrs c → x ∈ uni) :
    ∀ fuel queue seen, queue.length + countNew uni seen + 1 ≤ fuel →
      (bfsAux nbrs fuel queue seen).isSome := by
  intro fuel
  induction fuel with
  | zero => intro queue seen h; omega
  | succ f ih =>
      intro queue seen h
      cases queue with
      | nil => simp [bfsAux]
      | cons c rest =>
          simp only [bfsAux]
          obtain ⟨added, hpair, hnd, hmem, _⟩ := bfsScan_spec (nbrs c) seen []
          rw [hpair]
          apply ih
          have hlen := countNew_append uni added seen hnd
            (fun x hx => ⟨huni c x (hmem x hx).1, (hmem x hx).2⟩)
          simp only [List.length_cons, List.length_append,
            List.nil_append] at h ⊢
          omega

/-- Reversed-edge adjacency realizes the reversed edge relation. -/
theorem mem_backwardNeighbors_iff (edges : List AppEdge) (a b : String) :
    (b ∈ backwardNeighbors edges a) ↔ HasEdge edges b a := by
  simp only [backwardNeighbors, List.mem_map, List.mem_filter, beq_iff_eq,
    HasEdge]
  constructor
  · rintro ⟨e, ⟨he, ht⟩, hs⟩
    exact ⟨e, he, hs, ht⟩
  · rintro ⟨e, he, hs, ht⟩
    exact ⟨e, ⟨he, ht⟩, hs⟩

/-- Forward adjacency realizes the edge relation. -/
theorem mem_forwardNeighbors_iff (edges : List AppEdge) (a b : String) :
    (b ∈ forwardNeighbors edges a) ↔ HasEdge edges a b :=
  mem_targets_iff edges a b

/-- Transitive closures of pointwise-equivalent relations agree. -/
theorem transGen_congr {α : Type} {r s : α → α → Prop}
    (h : ∀ a b, r a b ↔ s a b) {a b : α} :
    Relation.TransGen r a b ↔ Relation.TransGen s a b :=
  ⟨Relation.TransGen.mono (fun x y hxy => (h x y).mp hxy),
   Relation.TransGen.mono (fun x y hxy => (h x y).mpr hxy)⟩

/-- A reflexive-transitive walk stays inside a successor-closed set. -/
theorem mem_closed_of_reflTransGen {nbrs : String → List String}
    {S : List String} (hcl : ∀ w, w ∈ S → ∀ v, v ∈ nbrs w → v ∈ S)
    {c m : String}
    (h : Relation.ReflTransGen (fun a b => b ∈ nbrs a) c m) : c ∈ S → m ∈ S := by
  induction h using Relation.ReflTransGen.head_induction_on with
  | refl => exact id
  | head step _ ih => exact fun hc => ih (hcl _ hc _ step)

/-- Node universe for the lineage BFS fuel accounting. -/
def lineageUniverse (edges : List AppEdge) : List String :=
  edges.map (fun e => e.source) ++ edges.map (fun e => e.target)

/-- The chosen `lineageFuel` is enough for a BFS from one start node
whose neighbor function stays inside the universe. -/
theorem lineage_bfs_isSome (edges : List AppEdge)
    (nbrs : String → List String)
    (huni : ∀ c x, x ∈ nbrs c → x ∈ lineageUniverse edges) (n : String) :
    (bfsAux nbrs (lineageFuel edges) [n] []).isSome := by
  apply bfsAux_isSome nbrs (lineageUniverse edges) huni
  have hcount : countNew (lineageUniverse edges) [] =
      (lineageUniverse edges).length := by
    unfold countNew
    rw [List.countP_eq_length]
    intro a _
    simp
  rw [hcount]
  simp only [lineageFuel, lineageUniverse, List.length_append,
    List.length_map, List.length_cons, List.length_nil]
  omega

/-- One direction of a lineage BFS, fully characterized: membership in
the completed collection is reachability through the neighbor
relation. -/
theorem bfs_from_characterization (nbrs : String → List String)
    (fuel : Nat) (n : String) (res : List String)
    (hrun : bfsAux nbrs fuel [n] [] = some res) (m : String) :
    m ∈ res ↔ Relation.TransGen (fun a b => b ∈ nbrs a) n m := by
  constructor
  · intro hm
    rcases bfsAux_sound nbrs fuel [n] [] res hrun m hm with h | ⟨q, hq, htg⟩
    · simp at h
    · rcases List.mem_singleton.mp hq with rfl
      exact htg
  · intro htg
    obtain ⟨hg, hq, hcl⟩ := bfsAux_complete nbrs fuel [n] [] res hrun
      (by intro w hw; simp at hw)
    obtain ⟨c, hstep, hrtg⟩ := Relation.TransGen.head'_iff.mp htg
    exact mem_closed_of_reflTransGen hcl hrtg
      (hq n (List.mem_singleton.mpr rfl) c hstep)

/-- The diamond fixture `A→B→D`, `A→C→D`. -/
def diamondEdges : List AppEdge :=
  [mkEdge "A" "B", mkEdge "A" "C", mkEdge "B" "D", mkEdge "C" "D"]

/-- Claim C7: on an acyclic graph, `getLineage(n).ancestors` is exactly
the set of nodes that reach `n` and `.descendants` exactly the set of
nodes reachable from `n`; both exclude `n` and are disjoint from each
other; and on the diamond `A→B→D`, `A→C→D` the ancestors of `D` are
exactly `{A, B, C}`. -/
theorem getLineage_spec (edges : List AppEdge) (n : String)
    (hacyc : Acyclic edges) :
    (∀ m, m ∈ (getLineage edges n).1 ↔ Reaches edges m n) ∧
    (∀ m, m ∈ (getLineage edges n).2 ↔ Reaches edges n m) ∧
    (n ∉ (getLineage edges n).1) ∧ (n ∉ (getLineage edges n).2) ∧
    (∀ m, m ∈ (getLineage edges n).1 → m ∉ (getLineage edges n).2) ∧
    (∀ m, m ∈ (getLineage diamondEdges "D").1 ↔
      (m = "A" ∨ m = "B" ∨ m = "C")) := by
  have hb_uni : ∀ c x, x ∈ backwardNeighbors edges c →
      x ∈ lineageUniverse edges := by
    intro c x hx
    simp only [backwardNeighbors, List.mem_map, List.mem_filter] at hx
    obtain ⟨e, ⟨he, _⟩, hs⟩ := hx
    exact List.mem_append.mpr (Or.inl (List.mem_map.mpr ⟨e, he, hs⟩))
  have hf_uni : ∀ c x, x ∈ forwardNeighbors edges c →
      x ∈ lineageUniverse edges := by
    intro c x hx
    simp only [forwardNeighbors, List.mem_map, List.mem_filter] at hx
    obtain ⟨e, ⟨he, _⟩, ht⟩ := hx
    exact List.mem_append.mpr (Or.inr (List.mem_map.mpr ⟨e, he, ht⟩))
  obtain ⟨anc, hanc⟩ := Option.isSome_iff_exists.mp
    (lineage_bfs_isSome edges (backwardNeighbors edges) hb_uni n)
  obtain ⟨des, hdes⟩ := Option.isSome_iff_exists.mp
    (lineage_bfs_isSome edges (forwardNeighbors edges) hf_uni n)
  have h1 : (getLineage edges n).1 = anc := by
    simp [getLineage, hanc]
  have h2 : (getLineage edges n).2 = des := by
    simp [getLineage, hdes]
  have hanc_iff : ∀ m, m ∈ anc ↔ Reaches edges m n := by
    intro m
    rw [bfs_from_characterization (backwardNeighbors edges) _ n anc hanc m]
    rw [transGen_congr (fun a b => mem_backwardNeighbors_iff edges a b)]
    show Relation.TransGen (Function.swap (HasEdge edges)) n m ↔ _
    exact Relation.transGen_swap
  have hdes_iff : ∀ m, m ∈ des ↔ Reaches edges n m := by
    intro m
    rw [bfs_from_characterization (forwardNeighbors edges) _ n des hdes m]
    exact transGen_congr (fun a b => mem_forwardNeighbors_iff edges a b)
  refine ⟨?_, ?_, ?_, ?_, ?_, ?_⟩
  · intro m
    rw [h1]
    exact hanc_iff m
  · intro m
    rw [h2]
    exact hdes_iff m
  · rw [h1]
    intro hc
    exact hacyc n ((hanc_iff n).mp hc)
  · rw [h2]
    intro hc
    exact hacyc n ((hdes_iff n).mp hc)
  · intro m hm1 hm2
    rw [h1] at hm1
    rw [h2] at hm2
    exact hacyc n
      (Relation.TransGen.trans ((hdes_iff m).mp hm2) ((hanc_iff m).mp hm1))
  · intro m
    have hconc : (getLineage diamondEdges "D").1 = ["B", "C", "A"] := by
      decide
    rw [hconc]
    simp only [List.mem_cons, List.not_mem_nil, or_false]
    tauto

/-- Witness for C7 on the acyclic diamond fixture. -/
theorem getLineage_spec_witness :
    Acyclic diamondEdges ∧
    ("A" ∈ (getLineage diamondEdges "D").1 ↔ Reaches diamondEdges "A" "D") := by
  have hac : Acyclic diamondEdges :=
    acyclic_of_rank diamondEdges
      (fun s => if s = "A" then 0 else if s = "D" then 2 else 1) (by decide)
  exact ⟨hac, (getLineage_spec diamondEdges "D" hac).1 "A"⟩

/-! ## Fuel adequacy of the DFS

The fuel chosen in `wouldCreateCycle` always suffices, so the
`none`-defaulting branch is dead code and the embedding agrees with the
source's unmetered recursion on every input. -/

/-- Unfolding `adjNodes` over a cons cell. -/
theorem adjNodes_cons (k : String) (vs : List String)
    (rest : List (String × List String)) :
    adjNodes ((k, vs) :: rest) = k :: (vs ++ adjNodes rest) := rfl

/-- Every entry of the adjacency list contributes its key and its
neighbors to `adjNodes`. -/
theorem mem_adjNodes_of_entry :
    ∀ (adj : List (String × List String)) (p : String × List String),
      p ∈ adj → p.1 ∈ adjNodes adj ∧ (∀ x, x ∈ p.2 → x ∈ adjNodes adj) := by
  intro adj
  induction adj with
  | nil => intro p hp; simp at hp
  | cons q rest ih =>
      intro p hp
      obtain ⟨k, vs⟩ := q
      rw [adjNodes_cons]
      rcases List.mem_cons.mp hp with rfl | hp'
      · exact ⟨List.mem_cons_self _ _,
          fun x hx => List.mem_cons_of_mem _ (List.mem_append.mpr (Or.inl hx))⟩
      · obtain ⟨h1, h2⟩ := ih p hp'
        exact ⟨List.mem_cons_of_mem _ (List.mem_append.mpr (Or.inr h1)),
          fun x hx =>
            List.mem_cons_of_mem _ (List.mem_append.mpr (Or.inr (h2 x hx)))⟩

/-- Neighbor entries live inside `adjNodes`. -/
theorem adjNeighbors_subset_adjNodes (adj : List (String × List String))
    (u x : String) (hx : x ∈ adjNeighbors adj u) : x ∈ adjNodes adj := by
  unfold adjNeighbors at hx
  cases hf : adj.find? (fun p => p.1 == u) with
  | none => rw [hf] at hx; simp at hx
  | some p =>
      rw [hf] at hx
      exact (mem_adjNodes_of_entry adj p (List.mem_of_find?_eq_some hf)).2 x hx

/-- Keys live inside `adjNodes`. -/
theorem adjKeys_subset_adjNodes (adj : List (String × List String))
    (k : String) (hk : k ∈ adjKeys adj) : k ∈ adjNodes adj := by
  obtain ⟨p, hp, rfl⟩ := List.mem_map.mp hk
  exact (mem_adjNodes_of_entry adj p hp).1

/-- The measure respects membership-equal collected sets. -/
theorem countNew_congr (uni : List String) {s1 s2 : List String}
    (h : ∀ x, x ∈ s1 ↔ x ∈ s2) : countNew uni s1 = countNew uni s2 :=
  Nat.le_antisymm (countNew_mono uni (fun x hx => (h x).mpr hx))
    (countNew_mono uni (fun x hx => (h x).mp hx))

/-- The visited set only grows across the neighbor loop, given that the
recursive call only grows it. -/
theorem dfsNeighbors_grow (adj : List (String × List String))
    (rec : String → List String → List String → Option (Bool × List String))
    (hrec : ∀ u visited stack b v', rec u visited stack = some (b, v') →
      ∀ x, x ∈ visited → x ∈ v') :
    ∀ ns visited stack b v',
      dfsNeighbors adj rec ns visited stack = some (b, v') →
      ∀ x, x ∈ visited → x ∈ v' := by
  intro ns
  induction ns with
  | nil =>
      intro visited stack b v' h
      have hv : visited = v' := by
        have h' := h
        simp [dfsNeighbors] at h'
        exact h'.2
      exact fun x hx => hv ▸ hx
  | cons n rest ih =>
      intro visited stack b v' h
      by_cases hmem : n ∈ visited
      · by_cases hstk : n ∈ stack
        · have hv : visited = v' := by
            have := h
            simp [dfsNeighbors, hmem, hstk] at this
            exact this.2
          exact fun x hx => hv ▸ hx
        · have heq : dfsNeighbors adj rec (n :: rest) visited stack
              = dfsNeighbors adj rec rest visited stack := by
            simp [dfsNeighbors, hmem, hstk]
          rw [heq] at h
          exact ih visited stack b v' h
      · cases hd : rec n visited stack with
        | none =>
            have heq : dfsNeighbors adj rec (n :: rest) visited stack = none := by
              simp [dfsNeighbors, hmem, hd]
            rw [heq] at h
            simp at h
        | some p =>
            obtain ⟨b1, v1⟩ := p
            cases b1 with
            | true =>
                have heq : dfsNeighbors adj rec (n :: rest) visited stack
                    = some (true, v1) := by
                  simp [dfsNeighbors, hmem, hd]
                rw [heq] at h
                obtain ⟨hb, hv⟩ := Prod.mk.injEq .. ▸ Option.some.injEq .. ▸ h
                exact fun x hx => hv ▸ hrec n visited stack true v1 hd x hx
            | false =>
                have heq : dfsNeighbors adj rec (n :: rest) visited stack
                    = dfsNeighbors adj rec rest v1 stack := by
                  simp [dfsNeighbors, hmem, hd]
                rw [heq] at h
                exact fun x hx => ih v1 stack b v' h x
                  (hrec n visited stack false v1 hd x hx)

/-- The visited set only grows across `dfsNode`. -/
theorem dfsNode_grow (adj : List (String × List String)) :
    ∀ fuel u visited stack b v',
      dfsNode adj fuel u visited stack = some (b, v') →
      ∀ x, x ∈ visited → x ∈ v' := by
  intro fuel
  induction fuel with
  | zero =>
      intro u visited stack b v' h
      simp [dfsNode] at h
  | succ f ih =>
      intro u visited stack b v' h
      have h' : dfsNeighbors adj (dfsNode adj f) (adjNeighbors adj u)
          (u :: visited) (u :: stack) = some (b, v') := h
      exact fun x hx =>
        dfsNeighbors_grow adj (dfsNode adj f) (ih) _ _ _ b v' h' x
          (List.mem_cons_of_mem _ hx)

/-- The neighbor loop completes whenever the recursive call does. -/
theorem dfsNeighbors_isSome_of (adj : List (String × List String)) (fuel : Nat)
    (hnode : ∀ u visited stack, u ∈ adjNodes adj → u ∉ visited →
      countNew (adjNodes adj) visited ≤ fuel →
      (dfsNode adj fuel u visited stack).isSome) :
    ∀ ns visited stack, (∀ x, x ∈ ns → x ∈ adjNodes adj) →
      countNew (adjNodes adj) visited ≤ fuel →
      (dfsNeighbors adj (dfsNode adj fuel) ns visited stack).isSome := by
  intro ns
  induction ns with
  | nil =>
      intro visited stack _ _
      simp [dfsNeighbors]
  | cons n rest ih =>
      intro visited stack hns hcnt
      by_cases hmem : n ∈ visited
      · by_cases hstk : n ∈ stack
        · simp [dfsNeighbors, hmem, hstk]
        · have := ih visited stack
            (fun x hx => hns x (List.mem_cons_of_mem _ hx)) hcnt
          simpa [dfsNeighbors, hmem, hstk] using this
      · have hn := hnode n visited stack (hns n (List.mem_cons_self _ _))
          hmem hcnt
        obtain ⟨p, heq⟩ := Option.isSome_iff_exists.mp hn
        obtain ⟨b, v⟩ := p
        cases b with
        | true => simp [dfsNeighbors, hmem, heq]
        | false =>
            have hgrow : ∀ x, x ∈ visited → x ∈ v :=
              dfsNode_grow adj fuel n visited stack false v heq
            have hcnt' : countNew (adjNodes adj) v ≤ fuel :=
              Nat.le_trans (countNew_mono _ hgrow) hcnt
            have := ih v stack
              (fun x hx => hns x (List.mem_cons_of_mem _ hx)) hcnt'
            simpa [dfsNeighbors, hmem, heq] using this

/-- `dfsNode` completes whenever the fuel covers the uncollected part
of the node universe. -/
theorem dfsNode_isSome (adj : List (String × List String)) :
    ∀ fuel u visited stack, u ∈ adjNodes adj → u ∉ visited →
      countNew (adjNodes adj) visited ≤ fuel →
      (dfsNode adj fuel u visited stack).isSome := by
  intro fuel
  induction fuel with
  | zero =>
      intro u visited stack hu hv hcnt
      exfalso
      have hpos : 0 < countNew (adjNodes adj) visited :=
        List.countP_pos_iff.mpr ⟨u, hu, by simp [hv]⟩
      omega
  | succ f ih =>
      intro u visited stack hu hv hcnt
      have hmain : (dfsNeighbors adj (dfsNode adj f) (adjNeighbors adj u)
          (u :: visited) (u :: stack)).isSome := by
        apply dfsNeighbors_isSome_of adj f ih
        · exact fun x hx => adjNeighbors_subset_adjNodes adj u x hx
        · have hcons : countNew (adjNodes adj) (u :: visited)
              = countNew (adjNodes adj) (visited ++ [u]) :=
            countNew_congr _ (fun x => by simp [or_comm])
          have hlt := countNew_snoc (adjNodes adj) visited u hu hv
          omega
      exact hmain

/-- The root loop completes whenever the fuel covers the uncollected
part of the node universe. -/
theorem dfsRoots_isSome (adj : List (String × List String)) (fuel : Nat) :
    ∀ ks visited, (∀ k, k ∈ ks → k ∈ adjNodes adj) →
      countNew (adjNodes adj) visited ≤ fuel →
      (dfsRoots adj fuel ks visited).isSome := by
  intro ks
  induction ks with
  | nil => intro visited _ _; simp [dfsRoots]
  | cons k rest ih =>
      intro visited hks hcnt
      by_cases hk : k ∈ visited
      · have := ih visited (fun x hx => hks x (List.mem_cons_of_mem _ hx)) hcnt
        simpa [dfsRoots, hk] using this
      · have hn := dfsNode_isSome adj fuel k visited []
          (hks k (List.mem_cons_self _ _)) hk hcnt
        obtain ⟨p, heq⟩ := Option.isSome_iff_exists.mp hn
        obtain ⟨b, v⟩ := p
        cases b with
        | true => simp [dfsRoots, hk, heq]
        | false =>
            have hgrow : ∀ x, x ∈ visited → x ∈ v :=
              dfsNode_grow adj fuel k visited [] false v heq
            have hcnt' : countNew (adjNodes adj) v ≤ fuel :=
              Nat.le_trans (countNew_mono _ hgrow) hcnt
            have := ih v (fun x hx => hks x (List.mem_cons_of_mem _ hx)) hcnt'
            simpa [dfsRoots, hk, heq] using this

/-- The fuel `|adjNodes| + 1` chosen in `wouldCreateCycle` always
completes the search: the defaulting branch is unreachable. -/
theorem wouldCreateCycle_total (edges : List AppEdge) (s t : String) :
    (dfsRoots (buildAdjacency edges s t)
      ((adjNodes (buildAdjacency edges s t)).length + 1)
      (adjKeys (buildAdjacency edges s t)) []).isSome := by
  apply dfsRoots_isSome
  · exact fun k hk => adjKeys_subset_adjNodes _ k hk
  · have : countNew (adjNodes (buildAdjacency edges s t)) [] =
        (adjNodes (buildAdjacency edges s t)).length := by
      unfold countNew
      rw [List.countP_eq_length]
      intro a _
      simp
    omega

end DiffusionGarden
